import Mathlib

/-!
Verification development for the toydb key/value storage engines.

The Go sources are shallowly embedded: each engine's state is a Lean
structure, files are lists of decoded records (framing sizes are computed
by a byte-accurate JSON size model), and every operation is a pure Lean
function translated from the corresponding Go function.  Machine integers
(Go int64 byte offsets and sizes) are modelled as Nat: all quantities
involved are non-negative and far below 2^63, so no overflow wrapping can
occur on the modelled paths.
-/

namespace ToyDB

/-! Decidability of the string order through character lists, so that
every definition below evaluates by kernel reduction on concrete inputs
(the default instances go through `String.ltb`, whose well-founded
recursion the kernel cannot unfold). -/

instance (priority := 1100) strDecLT (s₁ s₂ : String) : Decidable (s₁ < s₂) :=
  decidable_of_iff _ String.lt_iff_toList_lt.symm

instance (priority := 1100) strDecLE (s₁ s₂ : String) : Decidable (s₁ ≤ s₂) :=
  decidable_of_iff _ String.le_iff_toList_le.symm

/-! ## Byte-size model of Go json.Marshal output

`encoding/json` escapes a quotation mark, backslash, newline, carriage
return and tab to two bytes; other control characters, the HTML-escaped
characters `<`, `>`, `&`, and the line separators U+2028/U+2029 become a
six-byte \uXXXX sequence; every other character is copied as its UTF-8
bytes. -/

def escCharSize (c : Char) : Nat :=
  if c = '"' ∨ c = '\\' ∨ c = '\n' ∨ c = '\r' ∨ c = '\t' then 2
  else if c.toNat < 32 ∨ c = '<' ∨ c = '>' ∨ c = '&' ∨ c = '\u2028' ∨ c = '\u2029' then 6
  else c.utf8Size

/-- Byte length of the JSON string literal (including the two quotes)
that `json.Marshal` produces for a Go string. -/
def jsonStringSize (s : String) : Nat :=
  2 + (s.data.map escCharSize).sum

/-! ## Sorted-table (SSTable) codec, from the sstable package -/

/-- `Entry` from memtable.go: one record of the LSM engine. -/
structure Entry where
  Key : String
  Value : String
  Deleted : Bool
deriving DecidableEq, Repr

/-- Byte length of `json.Marshal` applied to an `Entry`:
the payload has the shape `\x7b"Key":K,"Value":V,"Deleted":D\x7d`,
whose fixed punctuation and field names occupy 28 bytes. -/
def entryJsonSize (e : Entry) : Nat :=
  28 + jsonStringSize e.Key + jsonStringSize e.Value + (if e.Deleted then 4 else 5)

/-- On-disk size of one framed data record: an 8-byte little-endian
length prefix followed by the JSON payload (sstable.go WriteSSTable). -/
def entryEncSize (e : Entry) : Nat :=
  8 + entryJsonSize e

/-- `IndexEntry` from the sstable codec: a sampled key with the byte
offset of the corresponding data record's length prefix. -/
structure IndexEntry where
  Key : String
  Offset : Nat
deriving DecidableEq, Repr

/-- `SSTableFooter` from the sstable codec. -/
structure SSTFooter where
  Version : Nat
  IndexOffset : Nat
  NumEntries : Nat
deriving DecidableEq, Repr

/-- A sorted table.  The Go `SSTable` retains the file path plus the
in-memory sparse index and footer; here the file's decoded data section
(`entries`, in file order) stands for the path, since every read reopens
the file and decodes these records. -/
structure SSTable where
  entries : List Entry
  index : List IndexEntry
  footer : SSTFooter
deriving DecidableEq, Repr

/-- `IndexInterval` = 16: one sparse-index sample every 16th record. -/
def IndexInterval : Nat := 16

/-- Comparator used by the writer's safety-net sort
(`entries[i].Key < entries[j].Key` under sort.Slice). -/
def entryLe (a b : Entry) : Prop := a.Key ≤ b.Key

instance : DecidableRel entryLe := fun a b => inferInstanceAs (Decidable (a.Key ≤ b.Key))

instance : IsTotal Entry entryLe := ⟨fun a b => le_total a.Key b.Key⟩

instance : IsTrans Entry entryLe := ⟨fun _ _ _ h h' => le_trans h h'⟩

/-- Key-sort of a record list, modelling the writer's sort.Slice call. -/
def sortEntries (es : List Entry) : List Entry :=
  es.insertionSort entryLe

/-- Total byte size of the data section holding `es`. -/
def dataSize (es : List Entry) : Nat :=
  (es.map entryEncSize).sum

/-- The writer's index-sampling loop: walking the (sorted) records with a
running entry counter `i` and byte offset `off`, it emits one index entry
for every record whose position is a multiple of `IndexInterval`. -/
def buildIndexAux : List Entry → Nat → Nat → List IndexEntry
  | [], _, _ => []
  | e :: rest, i, off =>
      (if i % IndexInterval = 0 then [⟨e.Key, off⟩] else [])
        ++ buildIndexAux rest (i + 1) (off + entryEncSize e)

/-- `WriteSSTable` followed by `OpenSSTable`: sorts the records, writes
the framed data section, samples the sparse index, and records the footer
(version 1, index offset = data-section size, entry count).  `OpenSSTable`
reads the footer and sparse index back verbatim, so the model of
write-then-open is the structure the writer produced. -/
def writeSSTable (es : List Entry) : SSTable :=
  let s := sortEntries es
  { entries := s
    index := buildIndexAux s 0 0
    footer := { Version := 1, IndexOffset := dataSize s, NumEntries := s.length } }

/-- First position whose projected key is ≥ `key` (length if none). -/
def lowerBoundBy (f : α → String) (key : String) : List α → Nat
  | [] => 0
  | a :: rest => if key ≤ f a then 0 else lowerBoundBy f key rest + 1

/-- Result of Go's `sort.Search n f` for a monotone predicate: the
smallest position at which the predicate holds (`n` if none).  The
predicate used by `Get`, `index[i].Key >= key`, is monotone because the
sparse index is key-sorted, so the binary search returns exactly this. -/
def lowerBound (l : List IndexEntry) (key : String) : Nat :=
  lowerBoundBy (fun ie => ie.Key) key l

/-- The data section as (byte offset of length prefix, record) pairs,
starting at byte offset `off`. -/
def withOffsets : List Entry → Nat → List (Nat × Entry)
  | [], _ => []
  | e :: rest, off => (off, e) :: withOffsets rest (off + entryEncSize e)

/-- The scan loop of `SSTable.Get`: while the current offset is below
`endOff`, deserialize the next record; a key match returns
(`""` for a tombstone, else the value) with exists=true, a record whose
key is strictly greater than the target returns a miss, otherwise the
scan continues.  The second component counts deserialized data records
(ghost instrumentation; the Go code performs one json.Unmarshal per
iteration). -/
def scanFrom (key : String) (endOff : Nat) : List (Nat × Entry) → (String × Bool) × Nat
  | [] => (("", false), 0)
  | (off, e) :: rest =>
      if off < endOff then
        if e.Key = key then
          ((if e.Deleted then ("", true) else (e.Value, true)), 1)
        else if key < e.Key then
          (("", false), 1)
        else
          let r := scanFrom key endOff rest
          (r.1, r.2 + 1)
      else (("", false), 0)

/-- Dummy index entry (never selected on the in-range paths). -/
def dummyIE : IndexEntry := ⟨"", 0⟩

/-- Dummy record, for out-of-range `getD` defaults. -/
def dummyE : Entry := ⟨"", "", false⟩

/-- The `startOffset` local of `SSTable.Get`. -/
def sstStartOffset (sst : SSTable) (key : String) : Nat :=
  let n := sst.index.length
  let idx := lowerBound sst.index key
  if n = 0 then 0
  else if idx < n then
    (if (sst.index.getD idx dummyIE).Key = key then (sst.index.getD idx dummyIE).Offset
     else if 0 < idx then (sst.index.getD (idx - 1) dummyIE).Offset
     else 0)
  else (sst.index.getD (n - 1) dummyIE).Offset

/-- The `endOffset` local of `SSTable.Get`. -/
def sstEndOffset (sst : SSTable) (key : String) : Nat :=
  let n := sst.index.length
  let idx := lowerBound sst.index key
  if idx + 1 < n then (sst.index.getD (idx + 1) dummyIE).Offset
  else sst.footer.IndexOffset

/-- `SSTable.Get`: binary-search the sparse index for the scan window,
seek to its start and scan.  Returns ((value, exists), records decoded). -/
def sstGetAux (sst : SSTable) (key : String) : (String × Bool) × Nat :=
  scanFrom key (sstEndOffset sst key)
    ((withOffsets sst.entries 0).dropWhile (fun p => p.1 < sstStartOffset sst key))

/-- `SSTable.Get`'s (value, exists) answer. -/
def sstGet (sst : SSTable) (key : String) : String × Bool :=
  (sstGetAux sst key).1

/-- Number of data records `SSTable.Get` deserializes for one lookup. -/
def sstGetCount (sst : SSTable) (key : String) : Nat :=
  (sstGetAux sst key).2

/-- `SSTable.GetAllEntries`: decodes the whole data section in file
order. -/
def getAllEntries (sst : SSTable) : List Entry :=
  sst.entries

/-! ## Facts about the sorted-table codec -/

/-- Strictly ascending keys: the first invariant of a sorted table. -/
def keysSorted (l : List Entry) : Prop :=
  l.Pairwise (fun a b => a.Key < b.Key)

/-- All keys distinct. -/
def keysNodup (l : List Entry) : Prop :=
  (l.map (fun e => e.Key)).Nodup

/-- Association-style lookup of the unique record carrying a key. -/
def lookupKey (l : List Entry) (k : String) : Option Entry :=
  l.find? (fun e => e.Key == k)

/-- Byte offset of the `j`-th data record in a data section holding
`es`. -/
def offAt (es : List Entry) (j : Nat) : Nat :=
  dataSize (es.take j)

theorem entryEncSize_pos (e : Entry) : 0 < entryEncSize e := by
  simp [entryEncSize]

theorem dataSize_nil : dataSize [] = 0 := rfl

theorem dataSize_cons (e : Entry) (l : List Entry) :
    dataSize (e :: l) = entryEncSize e + dataSize l := by
  simp [dataSize]

theorem dataSize_append (l₁ l₂ : List Entry) :
    dataSize (l₁ ++ l₂) = dataSize l₁ + dataSize l₂ := by
  simp [dataSize]

theorem offAt_zero (es : List Entry) : offAt es 0 = 0 := rfl

theorem offAt_add (es : List Entry) (i j : Nat) :
    offAt es (i + j) = offAt es i + dataSize ((es.drop i).take j) := by
  rw [offAt, offAt, List.take_add, dataSize_append]

theorem offAt_cons_succ (e : Entry) (es : List Entry) (j : Nat) :
    offAt (e :: es) (j + 1) = entryEncSize e + offAt es j := by
  simp [offAt, dataSize_cons]

theorem offAt_length (es : List Entry) : offAt es es.length = dataSize es := by
  simp [offAt]

theorem offAt_lt_of_lt (es : List Entry) {i j : Nat} (hij : i < j)
    (hi : i < es.length) : offAt es i < offAt es j := by
  have h1 : j = i + (j - i) := by omega
  rw [h1, offAt_add]
  have h2 : (es.drop i).take (j - i) = es[i] :: (es.drop (i + 1)).take (j - i - 1) := by
    rw [List.drop_eq_getElem_cons hi]
    have h3 : j - i = (j - i - 1) + 1 := by omega
    rw [h3, List.take_succ_cons]
    simp
  have := entryEncSize_pos (es[i])
  rw [h2, dataSize_cons]
  omega

theorem offAt_lt_dataSize (es : List Entry) {i : Nat} (hi : i < es.length) :
    offAt es i < dataSize es := by
  have := offAt_lt_of_lt es (j := es.length) hi hi
  rwa [offAt_length] at this

/-! ### The lower-bound search -/

theorem lowerBoundBy_le_length (f : α → String) (k : String) (l : List α) :
    lowerBoundBy f k l ≤ l.length := by
  induction l with
  | nil => simp [lowerBoundBy]
  | cons a rest ih =>
      simp only [lowerBoundBy, List.length_cons]
      split <;> omega

theorem lowerBoundBy_lt_key (f : α → String) (k : String) (l : List α) :
    ∀ j (hj : j < l.length), j < lowerBoundBy f k l → f (l[j]) < k := by
  induction l with
  | nil => intro j hj; simp at hj
  | cons a rest ih =>
      intro j hj hlt
      simp only [lowerBoundBy] at hlt
      by_cases hk : k ≤ f a
      · simp [hk] at hlt
      · simp only [hk, if_false] at hlt
        match j with
        | 0 => simpa using lt_of_not_le hk
        | j' + 1 =>
            have := ih j' (by simpa using hj) (by omega)
            simpa using this

theorem lowerBoundBy_le_of_le {f : α → String} {k : String} {l : List α}
    {j : Nat} (hj : j < l.length) (h : k ≤ f (l[j])) :
    lowerBoundBy f k l ≤ j := by
  by_contra hlt
  exact absurd h (not_le_of_lt (lowerBoundBy_lt_key f k l j hj (by omega)))

theorem key_le_lowerBoundBy {f : α → String} {k : String} {l : List α}
    (hs : l.Pairwise (fun a b => f a < f b))
    {j : Nat} (hj : j < l.length) (h : lowerBoundBy f k l ≤ j) :
    k ≤ f (l[j]) := by
  induction l generalizing j with
  | nil => simp at hj
  | cons a rest ih =>
      simp only [lowerBoundBy] at h
      by_cases hk : k ≤ f a
      · match j with
        | 0 => simpa using hk
        | j' + 1 =>
            have hj' : j' < rest.length := by simpa using hj
            have ha : f a < f (rest[j']) :=
              (List.pairwise_cons.1 hs).1 _ (List.getElem_mem hj')
            simpa using le_of_lt (lt_of_le_of_lt hk ha)
      · simp only [hk, if_false] at h
        match j with
        | 0 => omega
        | j' + 1 =>
            have := ih (List.pairwise_cons.1 hs).2 (j := j') (by simpa using hj) (by omega)
            simpa using this

/-! ### The sparse index in 16-record blocks -/

/-- Reformulation of the writer's index-sampling loop that recurses in
blocks of `IndexInterval = 16` records: one sample for the head, then the
samples of the records 16 positions further on. -/
def idxSpec : List Entry → Nat → List IndexEntry
  | [], _ => []
  | e :: rest, off =>
      ⟨e.Key, off⟩ :: idxSpec (rest.drop 15) (off + entryEncSize e + dataSize (rest.take 15))
termination_by l _ => l.length
decreasing_by simp; omega

theorem buildIndexAux_eq_idxSpec : ∀ (es : List Entry) (i off : Nat),
    buildIndexAux es i off
      = idxSpec (es.drop ((16 - i % 16) % 16)) (off + dataSize (es.take ((16 - i % 16) % 16))) := by
  intro es
  induction es with
  | nil => intro i off; simp [buildIndexAux, idxSpec]
  | cons e rest ih =>
      intro i off
      by_cases h0 : i % 16 = 0
      · have hnext : (16 - (i + 1) % 16) % 16 = 15 := by omega
        have hd : (16 - i % 16) % 16 = 0 := by omega
        rw [show buildIndexAux (e :: rest) i off
              = (if i % IndexInterval = 0 then [⟨e.Key, off⟩] else [])
                ++ buildIndexAux rest (i + 1) (off + entryEncSize e) from rfl,
          ih (i + 1) (off + entryEncSize e), hnext, hd]
        simp [IndexInterval, h0, idxSpec, dataSize_nil]
      · have hIV : IndexInterval = 16 := rfl
        have hd : (16 - i % 16) % 16 = 16 - i % 16 := by omega
        simp only [buildIndexAux, hIV, h0, if_false, List.nil_append]
        rw [ih (i + 1) (off + entryEncSize e)]
        by_cases h15 : i % 16 = 15
        · have hnext : (16 - (i + 1) % 16) % 16 = 0 := by omega
          have hd1 : (16 - i % 16) % 16 = 1 := by omega
          simp [hnext, hd1, dataSize_cons, Nat.add_assoc]
        · have hnext : (16 - (i + 1) % 16) % 16 = 16 - i % 16 - 1 := by omega
          rw [hnext, hd]
          have hdrop : (e :: rest).drop (16 - i % 16) = rest.drop (16 - i % 16 - 1) := by
            have h : 16 - i % 16 = (16 - i % 16 - 1) + 1 := by omega
            conv_lhs => rw [h]
            rw [List.drop_succ_cons]
          have htake : (e :: rest).take (16 - i % 16) = e :: rest.take (16 - i % 16 - 1) := by
            have h : 16 - i % 16 = (16 - i % 16 - 1) + 1 := by omega
            conv_lhs => rw [h]
            rw [List.take_succ_cons]
          rw [hdrop, htake, dataSize_cons]
          ring_nf

/-- Number of samples: `m` is a valid sample position exactly when record
`16 m` exists. -/
theorem lt_idxSpec_length_iff (es : List Entry) (off : Nat) : ∀ (m : Nat),
    m < (idxSpec es off).length ↔ 16 * m < es.length := by
  induction es, off using idxSpec.induct with
  | case1 off => intro m; simp [idxSpec]
  | case2 e rest off ih =>
      intro m
      match m with
      | 0 => simp [idxSpec]
      | m' + 1 =>
          simp only [idxSpec, List.length_cons, Nat.add_lt_add_iff_right]
          rw [ih m']
          simp only [List.length_drop, List.length_cons]
          omega

/-- The `m`-th sample names record `16 m` and its byte offset. -/
theorem idxSpec_getD (es : List Entry) (off : Nat) : ∀ (m : Nat), 16 * m < es.length →
    (idxSpec es off).getD m dummyIE
      = ⟨(es.getD (16 * m) dummyE).Key, off + offAt es (16 * m)⟩ := by
  induction es, off using idxSpec.induct with
  | case1 off => intro m h; simp at h
  | case2 e rest off ih =>
      intro m h
      match m with
      | 0 => simp [idxSpec, offAt_zero]
      | m' + 1 =>
          have hlen : 16 * m' < (rest.drop 15).length := by
            simp only [List.length_cons] at h
            simp only [List.length_drop]
            omega
          simp only [idxSpec, List.getD_cons_succ]
          rw [ih m' hlen]
          have h16 : 16 * (m' + 1) = 16 * m' + 16 := by ring
          have hrest : 16 * m' + 15 < rest.length := by
            simp only [List.length_cons] at h
            omega
          simp only [IndexEntry.mk.injEq]
          constructor
          · -- keys agree
            rw [List.getD_eq_getElem _ _ hlen, List.getD_eq_getElem _ _ (by simp; omega)]
            congr 1
            rw [List.getElem_drop]
            simp only [h16]
            rw [List.getElem_cons_succ]
            congr 1
            omega
          · -- offsets agree
            rw [h16]
            have : offAt (e :: rest) (16 * m' + 16) = offAt (e :: rest) (16 + 16 * m') := by
              congr 1
              omega
            rw [this]
            rw [show (16 + 16 * m' = 16 + 16 * m') from rfl]
            have hsplit : offAt (e :: rest) (16 + 16 * m')
                = offAt (e :: rest) 16 + dataSize (((e :: rest).drop 16).take (16 * m')) := by
              exact offAt_add (e :: rest) 16 (16 * m')
            rw [hsplit]
            have h1 : offAt (e :: rest) 16 = entryEncSize e + dataSize (rest.take 15) := by
              show dataSize ((e :: rest).take 16) = _
              rw [show ((e :: rest).take 16 = e :: rest.take 15) from rfl, dataSize_cons]
            have h2 : ((e :: rest).drop 16).take (16 * m') = ((rest.drop 15).take (16 * m')) := by
              rw [List.drop_succ_cons]
            rw [h1, h2]
            show _ = off + _
            rw [offAt]
            ring

/-! ### The seek and the scan -/

theorem withOffsets_map_snd (es : List Entry) (off : Nat) :
    (withOffsets es off).map (fun p => p.2) = es := by
  induction es generalizing off with
  | nil => rfl
  | cons e rest ih => simp [withOffsets, ih]

theorem snd_mem_of_mem_withOffsets {es : List Entry} {off : Nat} {p : Nat × Entry}
    (h : p ∈ withOffsets es off) : p.2 ∈ es := by
  have := List.mem_map_of_mem (fun q : Nat × Entry => q.2) h
  rwa [withOffsets_map_snd] at this

theorem fst_lt_of_mem_withOffsets {es : List Entry} {off : Nat} {p : Nat × Entry}
    (h : p ∈ withOffsets es off) : p.1 < off + dataSize es := by
  induction es generalizing off with
  | nil => simp [withOffsets] at h
  | cons e rest ih =>
      simp only [withOffsets, List.mem_cons] at h
      rcases h with h | h
      · have := entryEncSize_pos e
        rw [h, dataSize_cons]
        omega
      · have := ih h
        rw [dataSize_cons]
        omega

theorem withOffsets_append (l₁ l₂ : List Entry) (off : Nat) :
    withOffsets (l₁ ++ l₂) off = withOffsets l₁ off ++ withOffsets l₂ (off + dataSize l₁) := by
  induction l₁ generalizing off with
  | nil => simp [withOffsets, dataSize_nil]
  | cons e rest ih =>
      simp only [List.cons_append, withOffsets, List.append_eq, dataSize_cons]
      rw [ih (off + entryEncSize e)]
      simp [Nat.add_assoc]

/-- Seeking to the offset of record `j` leaves exactly the records from
position `j` on (the byte offsets are strictly increasing). -/
theorem dropWhile_withOffsets (es : List Entry) (base j : Nat) (hj : j ≤ es.length) :
    (withOffsets es base).dropWhile (fun p => p.1 < base + offAt es j)
      = withOffsets (es.drop j) (base + offAt es j) := by
  induction es generalizing base j with
  | nil =>
      simp at hj
      simp [withOffsets, hj]
  | cons e rest ih =>
      match j with
      | 0 =>
          rw [offAt_zero]
          simp [withOffsets, List.dropWhile_cons]
      | j' + 1 =>
          rw [offAt_cons_succ]
          have hbase : base < base + (entryEncSize e + offAt rest j') := by
            have := entryEncSize_pos e
            omega
          simp only [withOffsets, List.dropWhile_cons, decide_eq_true_eq, hbase, if_pos,
            List.drop_succ_cons]
          have := ih (base + entryEncSize e) j' (by simpa using hj)
          rw [show base + (entryEncSize e + offAt rest j') = base + entryEncSize e + offAt rest j'
            by ring]
          exact this

theorem scanFrom_miss {k : String} {endOff : Nat} {w : List (Nat × Entry)}
    (h : ∀ p ∈ w, p.2.Key ≠ k) : (scanFrom k endOff w).1 = ("", false) := by
  induction w with
  | nil => rfl
  | cons p rest ih =>
      obtain ⟨off, e⟩ := p
      have hne : e.Key ≠ k := h (off, e) (by simp)
      simp only [scanFrom, hne, if_false]
      split
      · split
        · rfl
        · exact ih (fun q hq => h q (by simp [hq]))
      · rfl

theorem scanFrom_found {k : String} {endOff : Nat} (w₁ : List (Nat × Entry))
    {w₂ : List (Nat × Entry)} {off : Nat} {e : Entry}
    (h₁ : ∀ p ∈ w₁, p.2.Key < k ∧ p.1 < endOff) (he : e.Key = k) (hoff : off < endOff) :
    scanFrom k endOff (w₁ ++ (off, e) :: w₂)
      = ((if e.Deleted then ("", true) else (e.Value, true)), w₁.length + 1) := by
  induction w₁ with
  | nil => simp [scanFrom, he, hoff]
  | cons p rest ih =>
      obtain ⟨o, x⟩ := p
      have hx := h₁ (o, x) (by simp)
      have hne : x.Key ≠ k := ne_of_lt hx.1
      have hngt : ¬ k < x.Key := not_lt_of_lt hx.1
      simp only [List.cons_append, scanFrom, hx.2, if_pos, hne, if_false, hngt, List.append_eq]
      rw [ih (fun q hq => h₁ q (by simp [hq]))]
      simp [Nat.add_comm, Nat.add_assoc]

theorem scanFrom_count_le (k : String) (endOff : Nat) (w : List (Nat × Entry)) :
    (scanFrom k endOff w).2
      ≤ w.countP (fun p => decide (p.1 < endOff) && decide (p.2.Key < k)) + 1 := by
  induction w with
  | nil => simp [scanFrom]
  | cons p rest ih =>
      obtain ⟨off, e⟩ := p
      by_cases hoff : off < endOff
      · by_cases hk : e.Key = k
        · simp [scanFrom, hoff, hk]
        · by_cases hgt : k < e.Key
          · simp [scanFrom, hoff, hk, hgt]
          · have hlt : e.Key < k := lt_of_le_of_ne (le_of_not_lt hgt) hk
            simp only [scanFrom, hoff, if_pos, hk, if_false, hgt]
            rw [List.countP_cons]
            have hc : (decide ((off, e).1 < endOff) && decide ((off, e).2.Key < k)) = true := by
              simp only [Bool.and_eq_true, decide_eq_true_eq]
              exact ⟨hoff, hlt⟩
            rw [hc]
            simp only [if_pos]
            omega
      · simp only [scanFrom, hoff, if_false]
        omega

/-! ### Key uniqueness and lookup -/

theorem keysNodup_of_keysSorted {l : List Entry} (hs : keysSorted l) : keysNodup l := by
  rw [keysNodup, List.Nodup, List.pairwise_map]
  exact hs.imp (fun h => ne_of_lt h)

theorem eq_of_mem_of_same_key {l : List Entry} (hnd : keysNodup l) {a b : Entry}
    (ha : a ∈ l) (hb : b ∈ l) (hk : a.Key = b.Key) : a = b :=
  List.inj_on_of_nodup_map hnd ha hb hk

theorem lookupKey_eq_some_iff {l : List Entry} (hnd : keysNodup l) {k : String} {e : Entry} :
    lookupKey l k = some e ↔ e ∈ l ∧ e.Key = k := by
  constructor
  · intro h
    have hm := List.mem_of_find?_eq_some h
    have hp := List.find?_some h
    simp only [beq_iff_eq] at hp
    exact ⟨hm, hp⟩
  · rintro ⟨hm, hk⟩
    rcases h2 : lookupKey l k with _ | e2
    · rw [lookupKey, List.find?_eq_none] at h2
      exact absurd (by simpa using hk) (h2 e hm)
    · have hm2 := List.mem_of_find?_eq_some h2
      have hp2 := List.find?_some h2
      simp only [beq_iff_eq] at hp2
      rw [eq_of_mem_of_same_key hnd hm2 hm (hp2.trans hk.symm)]

theorem lookupKey_eq_none_iff {l : List Entry} {k : String} :
    lookupKey l k = none ↔ ∀ e ∈ l, e.Key ≠ k := by
  rw [lookupKey, List.find?_eq_none]
  simp

/-- `lookupKey` is invariant under permutation when keys are distinct. -/
theorem lookupKey_perm {l l' : List Entry} (hp : l.Perm l') (hnd : keysNodup l')
    (k : String) : lookupKey l k = lookupKey l' k := by
  have hnd' : keysNodup l := by
    rw [keysNodup] at hnd ⊢
    exact (hp.map (fun e => e.Key)).nodup_iff.2 hnd
  rcases h : lookupKey l' k with _ | e
  · rw [lookupKey_eq_none_iff] at h ⊢
    exact fun e he => h e (hp.mem_iff.1 he)
  · rw [lookupKey_eq_some_iff hnd] at h
    rw [lookupKey_eq_some_iff hnd']
    exact ⟨hp.mem_iff.2 h.1, h.2⟩

/-! ### Sortedness facts about the writer output -/

theorem sortEntries_perm (es : List Entry) : (sortEntries es).Perm es :=
  List.perm_insertionSort entryLe es

theorem keysSorted_sortEntries {es : List Entry} (hnd : keysNodup es) :
    keysSorted (sortEntries es) := by
  have hle : List.Sorted entryLe (sortEntries es) := List.sorted_insertionSort entryLe es
  have hnd' : keysNodup (sortEntries es) := by
    have h2 : keysNodup es := hnd
    rw [keysNodup] at h2 ⊢
    exact ((sortEntries_perm es).map (fun e => e.Key)).nodup_iff.2 h2
  rw [keysNodup, List.Nodup, List.pairwise_map] at hnd'
  rw [keysSorted]
  exact (hle.and hnd').imp (fun h => lt_of_le_of_ne h.1 h.2)

theorem buildIndexAux_zero (es : List Entry) : buildIndexAux es 0 0 = idxSpec es 0 := by
  rw [buildIndexAux_eq_idxSpec]
  norm_num
  rfl

/-- The sampled keys are strictly sorted whenever the records are. -/
theorem idxSpec_keysSorted {s : List Entry} (hs : keysSorted s) :
    (idxSpec s 0).Pairwise (fun a b => a.Key < b.Key) := by
  rw [List.pairwise_iff_getElem]
  intro i j hi hj hij
  have h16i : 16 * i < s.length := (lt_idxSpec_length_iff s 0 i).1 hi
  have h16j : 16 * j < s.length := (lt_idxSpec_length_iff s 0 j).1 hj
  have hgi := idxSpec_getD s 0 i h16i
  have hgj := idxSpec_getD s 0 j h16j
  rw [List.getD_eq_getElem _ _ hi] at hgi
  rw [List.getD_eq_getElem _ _ hj] at hgj
  rw [hgi, hgj]
  simp only
  rw [List.getD_eq_getElem _ _ h16i, List.getD_eq_getElem _ _ h16j]
  have := List.pairwise_iff_getElem.1 hs (16 * i) (16 * j) h16i h16j (by omega)
  exact this

/-- For sorted records, the number of keys below `k` is at most the
lower-bound position of `k`. -/
theorem countP_lt_le_lowerBoundBy {l : List Entry} (hs : keysSorted l) (k : String) :
    l.countP (fun e => decide (e.Key < k)) ≤ lowerBoundBy (fun e => e.Key) k l := by
  induction l with
  | nil => simp
  | cons a rest ih =>
      rw [List.countP_cons]
      simp only [lowerBoundBy]
      by_cases hk : k ≤ a.Key
      · have hz : rest.countP (fun e => decide (e.Key < k)) = 0 := by
          rw [List.countP_eq_zero]
          intro e he
          have ha : a.Key < e.Key := (List.pairwise_cons.1 hs).1 e he
          simp only [decide_eq_true_eq]
          exact not_lt_of_le (le_of_lt (lt_of_le_of_lt hk ha))
        have hz2 : ¬ a.Key < k := not_lt_of_le hk
        rw [if_pos hk, hz]
        simp [hz2]
      · have := ih (List.pairwise_cons.1 hs).2
        simp only [hk, if_false]
        split <;> omega

/-! ### Scanning a window that starts at a record boundary -/

theorem withOffsets_length (es : List Entry) (off : Nat) :
    (withOffsets es off).length = es.length := by
  induction es generalizing off with
  | nil => rfl
  | cons e rest ih => simp [withOffsets, ih]

theorem dropWhile_withOffsets_zero (es : List Entry) (j : Nat) (hj : j ≤ es.length) :
    (withOffsets es 0).dropWhile (fun p => p.1 < offAt es j)
      = withOffsets (es.drop j) (offAt es j) := by
  have h := dropWhile_withOffsets es 0 j hj
  simpa using h

/-- If the target key sits at its lower-bound position `lb` and the
window starts at a position `t ≤ lb` with end offset beyond record `lb`,
the scan finds the record, deserializing `lb - t + 1` records. -/
theorem scan_window_found {s : List Entry} {k : String} {t endOff lb : Nat}
    (hlbdef : lb = lowerBoundBy (fun e => e.Key) k s)
    (htlb : t ≤ lb) (hlbn : lb < s.length)
    (hkey : (s.getD lb dummyE).Key = k)
    (hend : offAt s lb < endOff) :
    scanFrom k endOff (withOffsets (s.drop t) (offAt s t))
      = ((if (s.getD lb dummyE).Deleted then ("", true) else ((s.getD lb dummyE).Value, true)),
         (lb - t) + 1) := by
  have htn : t ≤ s.length := le_of_lt (lt_of_le_of_lt htlb hlbn)
  have hsplit : s.drop t = (s.drop t).take (lb - t) ++ ((s.getD lb dummyE) :: s.drop (lb + 1)) := by
    conv_lhs => rw [← List.take_append_drop (lb - t) (s.drop t)]
    congr 1
    rw [List.drop_drop]
    have h1 : t + (lb - t) = lb := by omega
    rw [h1, List.getD_eq_getElem _ _ hlbn]
    exact List.drop_eq_getElem_cons hlbn
  have hAsize : offAt s t + dataSize ((s.drop t).take (lb - t)) = offAt s lb := by
    rw [← offAt_add]
    congr 1
    omega
  rw [hsplit, withOffsets_append, hAsize]
  rw [show withOffsets ((s.getD lb dummyE) :: s.drop (lb + 1)) (offAt s lb)
        = (offAt s lb, s.getD lb dummyE)
            :: withOffsets (s.drop (lb + 1)) (offAt s lb + entryEncSize (s.getD lb dummyE))
      from rfl]
  have hw₁ : ∀ p ∈ withOffsets ((s.drop t).take (lb - t)) (offAt s t),
      p.2.Key < k ∧ p.1 < endOff := by
    intro p hp
    constructor
    · have hmem := snd_mem_of_mem_withOffsets hp
      obtain ⟨q, hq, hpq⟩ := List.mem_iff_getElem.1 hmem
      have hqlen : q < lb - t := by
        have := hq
        simp only [List.length_take, List.length_drop] at this
        omega
      have hq2 : t + q < s.length := by omega
      have hval : ((s.drop t).take (lb - t))[q] = s[t + q] := by
        rw [List.getElem_take, List.getElem_drop]
      have hlt : (s[t + q]).Key < k := by
        have := lowerBoundBy_lt_key (fun e => e.Key) k s (t + q) hq2 (by omega)
        simpa [hlbdef] using this
      rw [← hpq, hval]
      exact hlt
    · have h1 := fst_lt_of_mem_withOffsets hp
      have h2 : offAt s t + dataSize ((s.drop t).take (lb - t)) = offAt s lb := hAsize
      omega
  rw [scanFrom_found _ hw₁ hkey hend]
  congr 1
  rw [withOffsets_length]
  simp only [List.length_take, List.length_drop]
  omega

/-- Scanning any such window deserializes at most
(lower bound of `k` within the window) + 1 records. -/
theorem scan_window_count {s : List Entry} (hs : keysSorted s) (k : String) (t endOff : Nat) :
    (scanFrom k endOff (withOffsets (s.drop t) (offAt s t))).2
      ≤ lowerBoundBy (fun e => e.Key) k (s.drop t) + 1 := by
  have h1 := scanFrom_count_le k endOff (withOffsets (s.drop t) (offAt s t))
  have h2 : (withOffsets (s.drop t) (offAt s t)).countP
        (fun p => decide (p.1 < endOff) && decide (p.2.Key < k))
      ≤ (withOffsets (s.drop t) (offAt s t)).countP (fun p => decide (p.2.Key < k)) := by
    apply List.countP_mono_left
    intro p _ hp
    simp only [Bool.and_eq_true] at hp
    exact hp.2
  have h3 : (withOffsets (s.drop t) (offAt s t)).countP (fun p => decide (p.2.Key < k))
      = (s.drop t).countP (fun e => decide (e.Key < k)) := by
    conv_rhs => rw [← withOffsets_map_snd (s.drop t) (offAt s t)]
    rw [List.countP_map]
    rfl
  have h4 : (s.drop t).countP (fun e => decide (e.Key < k))
      ≤ lowerBoundBy (fun e => e.Key) k (s.drop t) :=
    countP_lt_le_lowerBoundBy (List.Pairwise.drop hs) k
  omega

/-- Scanning a window that starts at a record boundary `t` at or before
the target's lower bound computes the association-lookup answer, in at
most (window lower bound + 1) deserializations. -/
theorem sstScan_spec {s : List Entry} (hs : keysSorted s) {k : String} {t endOff : Nat}
    (htlb : t ≤ lowerBoundBy (fun e => e.Key) k s)
    (hcnt : lowerBoundBy (fun e => e.Key) k (s.drop t) ≤ IndexInterval)
    (hend : lowerBoundBy (fun e => e.Key) k s < s.length →
        offAt s (lowerBoundBy (fun e => e.Key) k s) < endOff) :
    ((scanFrom k endOff (withOffsets (s.drop t) (offAt s t))).1
        = (match lookupKey s k with
           | none => ("", false)
           | some e => ((if e.Deleted then "" else e.Value), true)))
      ∧ (scanFrom k endOff (withOffsets (s.drop t) (offAt s t))).2 ≤ IndexInterval + 1 := by
  constructor
  · rcases hlk : lookupKey s k with _ | e
    · rw [lookupKey_eq_none_iff] at hlk
      exact scanFrom_miss
        (fun p hp => hlk p.2 (List.mem_of_mem_drop (snd_mem_of_mem_withOffsets hp)))
    · have hnd := keysNodup_of_keysSorted hs
      rw [lookupKey_eq_some_iff hnd] at hlk
      obtain ⟨hmem, hkey⟩ := hlk
      obtain ⟨p, hp, hpe⟩ := List.mem_iff_getElem.1 hmem
      have hlbp : lowerBoundBy (fun e => e.Key) k s ≤ p :=
        lowerBoundBy_le_of_le hp (by rw [hpe, hkey])
      have hlbn : lowerBoundBy (fun e => e.Key) k s < s.length := lt_of_le_of_lt hlbp hp
      have hklb : k ≤ (s[lowerBoundBy (fun e => e.Key) k s]).Key :=
        key_le_lowerBoundBy hs hlbn (le_refl _)
      have hlbk : (s[lowerBoundBy (fun e => e.Key) k s]).Key = k := by
        rcases Nat.lt_or_ge (lowerBoundBy (fun e => e.Key) k s) p with h | h
        · have hlt := List.pairwise_iff_getElem.1 hs _ p hlbn hp h
          rw [hpe, hkey] at hlt
          exact le_antisymm (le_of_lt hlt) hklb
        · have hq : p = lowerBoundBy (fun e => e.Key) k s := le_antisymm h hlbp
          subst hq
          rw [hpe, hkey]
      have hgd : s.getD (lowerBoundBy (fun e => e.Key) k s) dummyE
          = s[lowerBoundBy (fun e => e.Key) k s] := List.getD_eq_getElem _ _ hlbn
      have heq : s.getD (lowerBoundBy (fun e => e.Key) k s) dummyE = e := by
        rw [hgd]
        exact eq_of_mem_of_same_key hnd (List.getElem_mem hlbn) hmem (by rw [hlbk, hkey])
      rw [scan_window_found rfl htlb hlbn (by rw [heq, hkey]) (hend hlbn)]
      rw [heq]
      cases hd : e.Deleted <;> simp [hd]
  · have h1 := scan_window_count hs k t endOff
    have h2 : IndexInterval = 16 := rfl
    omega

theorem lowerBound_eq (l : List IndexEntry) (k : String) :
    lowerBound l k = lowerBoundBy (fun ie => ie.Key) k l := rfl

theorem idxSpec_getD_key (s : List Entry) {m : Nat} (h16 : 16 * m < s.length) :
    ((idxSpec s 0).getD m dummyIE).Key = (s[16 * m]).Key := by
  rw [idxSpec_getD s 0 m h16]
  simp only
  rw [List.getD_eq_getElem _ _ h16]

theorem idxSpec_getD_offset (s : List Entry) {m : Nat} (h16 : 16 * m < s.length) :
    ((idxSpec s 0).getD m dummyIE).Offset = offAt s (16 * m) := by
  rw [idxSpec_getD s 0 m h16]
  simp

/-- A sample strictly before the index lower bound names a record
strictly before the record lower bound. -/
theorem sample_lt_lb {s : List Entry} (hs : keysSorted s) (k : String) {m : Nat}
    (hm : m < lowerBound (idxSpec s 0) k) (hmn : m < (idxSpec s 0).length) :
    16 * m < lowerBoundBy (fun e => e.Key) k s := by
  have h16 : 16 * m < s.length := (lt_idxSpec_length_iff s 0 m).1 hmn
  have h1 : ((idxSpec s 0)[m]).Key < k := by
    rw [lowerBound_eq] at hm
    exact lowerBoundBy_lt_key (fun ie => ie.Key) k (idxSpec s 0) m hmn hm
  rw [← List.getD_eq_getElem _ dummyIE hmn, idxSpec_getD_key s h16] at h1
  by_contra hc
  push_neg at hc
  exact absurd (key_le_lowerBoundBy hs h16 hc) (not_le_of_lt h1)

/-- A sample at or after the index lower bound names a record at or after
the record lower bound. -/
theorem lb_le_sample {s : List Entry} (hs : keysSorted s) (k : String) {m : Nat}
    (hm : lowerBound (idxSpec s 0) k ≤ m) (hmn : m < (idxSpec s 0).length) :
    lowerBoundBy (fun e => e.Key) k s ≤ 16 * m := by
  have h16 : 16 * m < s.length := (lt_idxSpec_length_iff s 0 m).1 hmn
  have h1 : k ≤ ((idxSpec s 0)[m]).Key := by
    refine key_le_lowerBoundBy (idxSpec_keysSorted hs) hmn ?_
    rw [← lowerBound_eq]
    exact hm
  rw [← List.getD_eq_getElem _ dummyIE hmn, idxSpec_getD_key s h16] at h1
  exact lowerBoundBy_le_of_le h16 h1

theorem sstStartOffset_lit (s : List Entry) (k : String) :
    sstStartOffset ⟨s, idxSpec s 0, ⟨1, dataSize s, s.length⟩⟩ k
      = (if (idxSpec s 0).length = 0 then 0
         else if lowerBound (idxSpec s 0) k < (idxSpec s 0).length then
           (if ((idxSpec s 0).getD (lowerBound (idxSpec s 0) k) dummyIE).Key = k
            then ((idxSpec s 0).getD (lowerBound (idxSpec s 0) k) dummyIE).Offset
            else if 0 < lowerBound (idxSpec s 0) k
            then ((idxSpec s 0).getD (lowerBound (idxSpec s 0) k - 1) dummyIE).Offset
            else 0)
         else ((idxSpec s 0).getD ((idxSpec s 0).length - 1) dummyIE).Offset) := rfl

theorem sstEndOffset_lit (s : List Entry) (k : String) :
    sstEndOffset ⟨s, idxSpec s 0, ⟨1, dataSize s, s.length⟩⟩ k
      = (if lowerBound (idxSpec s 0) k + 1 < (idxSpec s 0).length
         then ((idxSpec s 0).getD (lowerBound (idxSpec s 0) k + 1) dummyIE).Offset
         else dataSize s) := rfl

/-- Point-lookup correctness and cost for a table holding sorted records
with their sampled sparse index and footer. -/
theorem sstGetAux_idxSpec (s : List Entry) (hs : keysSorted s) (k : String) :
    ((sstGetAux ⟨s, idxSpec s 0, ⟨1, dataSize s, s.length⟩⟩ k).1
        = (match lookupKey s k with
           | none => ("", false)
           | some e => ((if e.Deleted then "" else e.Value), true)))
      ∧ (sstGetAux ⟨s, idxSpec s 0, ⟨1, dataSize s, s.length⟩⟩ k).2 ≤ IndexInterval + 1 := by
  have hIffN : ∀ m, m < (idxSpec s 0).length ↔ 16 * m < s.length := lt_idxSpec_length_iff s 0
  by_cases hn : (idxSpec s 0).length = 0
  · have hs0 : s = [] := by
      rcases hc : s with _ | ⟨e, rest⟩
      · rfl
      · exfalso
        have h1 : 0 < (idxSpec s 0).length := by
          rw [hIffN 0, hc]
          simp
        omega
    subst hs0
    exact ⟨rfl, by rw [show (sstGetAux ⟨[], idxSpec [] 0,
      ⟨1, dataSize [], List.length []⟩⟩ k).2 = 0 from rfl]; omega⟩
  · -- choose the scan window's starting record position t
    obtain ⟨t, hstart, htn, htlb, hcnt⟩ :
        ∃ t, sstStartOffset ⟨s, idxSpec s 0, ⟨1, dataSize s, s.length⟩⟩ k = offAt s t
          ∧ t ≤ s.length
          ∧ t ≤ lowerBoundBy (fun e => e.Key) k s
          ∧ lowerBoundBy (fun e => e.Key) k (s.drop t) ≤ IndexInterval := by
      by_cases hidx : lowerBound (idxSpec s 0) k < (idxSpec s 0).length
      · have h16i : 16 * lowerBound (idxSpec s 0) k < s.length := (hIffN _).1 hidx
        by_cases hhit : ((idxSpec s 0).getD (lowerBound (idxSpec s 0) k) dummyIE).Key = k
        · -- direct hit in the sparse index: scan starts at the match
          have hkeyhit : (s[16 * lowerBound (idxSpec s 0) k]).Key = k := by
            rw [← idxSpec_getD_key s h16i]
            exact hhit
          have htlb : 16 * lowerBound (idxSpec s 0) k
              ≤ lowerBoundBy (fun e => e.Key) k s := by
            by_contra hc
            push_neg at hc
            have hlbn : lowerBoundBy (fun e => e.Key) k s < s.length := by omega
            have h2 : k ≤ (s[lowerBoundBy (fun e => e.Key) k s]).Key :=
              key_le_lowerBoundBy hs hlbn (le_refl _)
            have h3 : (s[lowerBoundBy (fun e => e.Key) k s]).Key
                < (s[16 * lowerBound (idxSpec s 0) k]).Key :=
              List.pairwise_iff_getElem.1 hs _ _ hlbn h16i hc
            rw [hkeyhit] at h3
            exact absurd (lt_of_le_of_lt h2 h3) (lt_irrefl k)
          refine ⟨16 * lowerBound (idxSpec s 0) k, ?_, le_of_lt h16i, htlb, ?_⟩
          · rw [sstStartOffset_lit, if_neg hn, if_pos hidx, if_pos hhit,
              idxSpec_getD_offset s h16i]
          · have h0len : 0 < (s.drop (16 * lowerBound (idxSpec s 0) k)).length := by
              simp only [List.length_drop]
              omega
            have hkey0 : k ≤ ((s.drop (16 * lowerBound (idxSpec s 0) k))[0]).Key := by
              rw [List.getElem_drop]
              exact le_of_eq hkeyhit.symm
            have hfin : lowerBoundBy (fun e => e.Key) k
                (s.drop (16 * lowerBound (idxSpec s 0) k)) ≤ 0 :=
              lowerBoundBy_le_of_le h0len hkey0
            rw [show IndexInterval = 16 from rfl]
            omega
        · by_cases hpos : 0 < lowerBound (idxSpec s 0) k
          · -- scan from the predecessor sample
            have hm1 : lowerBound (idxSpec s 0) k - 1 < (idxSpec s 0).length := by omega
            have h16m : 16 * (lowerBound (idxSpec s 0) k - 1) < s.length := (hIffN _).1 hm1
            refine ⟨16 * (lowerBound (idxSpec s 0) k - 1), ?_, le_of_lt h16m, ?_, ?_⟩
            · rw [sstStartOffset_lit, if_neg hn, if_pos hidx, if_neg hhit, if_pos hpos,
                idxSpec_getD_offset s h16m]
            · exact le_of_lt (sample_lt_lb hs k (by omega) hm1)
            · have h16len : 16 < (s.drop (16 * (lowerBound (idxSpec s 0) k - 1))).length := by
                simp only [List.length_drop]
                omega
              have hkidx : k ≤ (s[16 * lowerBound (idxSpec s 0) k]).Key := by
                rw [← idxSpec_getD_key s h16i, List.getD_eq_getElem _ dummyIE hidx]
                exact key_le_lowerBoundBy (idxSpec_keysSorted hs) hidx
                  (by rw [← lowerBound_eq])
              have hkey16 : k
                  ≤ ((s.drop (16 * (lowerBound (idxSpec s 0) k - 1)))[16]).Key := by
                rw [List.getElem_drop]
                have harith : 16 * (lowerBound (idxSpec s 0) k - 1) + 16
                    = 16 * lowerBound (idxSpec s 0) k := by omega
                simp only [harith]
                exact hkidx
              have hfin : lowerBoundBy (fun e => e.Key) k
                  (s.drop (16 * (lowerBound (idxSpec s 0) k - 1))) ≤ 16 :=
                lowerBoundBy_le_of_le h16len hkey16
              rw [show IndexInterval = 16 from rfl]
              omega
          · -- the lower-bound sample is the very first one: scan from 0
            have h0i : 0 < (idxSpec s 0).length := by omega
            have h160 : 16 * 0 < s.length := (hIffN 0).1 h0i
            refine ⟨0, ?_, Nat.zero_le _, Nat.zero_le _, ?_⟩
            · rw [sstStartOffset_lit, if_neg hn, if_pos hidx, if_neg hhit, if_neg hpos]
              exact (offAt_zero s).symm
            · have hk0 : k ≤ (s[16 * 0]).Key := by
                rw [← idxSpec_getD_key s h160, List.getD_eq_getElem _ dummyIE h0i]
                exact key_le_lowerBoundBy (idxSpec_keysSorted hs) h0i
                  (by rw [← lowerBound_eq]; omega)
              have h0len : 0 < (s.drop 0).length := by
                simp only [List.length_drop]
                omega
              have hkey0 : k ≤ ((s.drop 0)[0]).Key := by
                rw [List.getElem_drop]
                exact hk0
              have hfin : lowerBoundBy (fun e => e.Key) k (s.drop 0) ≤ 0 :=
                lowerBoundBy_le_of_le h0len hkey0
              rw [show IndexInterval = 16 from rfl]
              omega
      · -- the target lies beyond every sample: scan from the last one
        have hlast : (idxSpec s 0).length - 1 < (idxSpec s 0).length := by omega
        have h16l : 16 * ((idxSpec s 0).length - 1) < s.length := (hIffN _).1 hlast
        refine ⟨16 * ((idxSpec s 0).length - 1), ?_, le_of_lt h16l, ?_, ?_⟩
        · rw [sstStartOffset_lit, if_neg hn, if_neg hidx, idxSpec_getD_offset s h16l]
        · exact le_of_lt (sample_lt_lb hs k (by omega) hlast)
        · have hbound : s.length ≤ 16 * (idxSpec s 0).length := by
            by_contra hc
            push_neg at hc
            exact absurd ((hIffN (idxSpec s 0).length).2 hc) (lt_irrefl _)
          have h1 := lowerBoundBy_le_length (fun e => e.Key) k
            (s.drop (16 * ((idxSpec s 0).length - 1)))
          simp only [List.length_drop] at h1
          rw [show IndexInterval = 16 from rfl]
          omega
    -- the end offset lies beyond the target record whenever it exists
    have hend : lowerBoundBy (fun e => e.Key) k s < s.length →
        offAt s (lowerBoundBy (fun e => e.Key) k s)
          < sstEndOffset ⟨s, idxSpec s 0, ⟨1, dataSize s, s.length⟩⟩ k := by
      intro hlbn
      rw [sstEndOffset_lit]
      by_cases h2 : lowerBound (idxSpec s 0) k + 1 < (idxSpec s 0).length
      · rw [if_pos h2, idxSpec_getD_offset s ((hIffN _).1 h2)]
        have hlble : lowerBoundBy (fun e => e.Key) k s
            ≤ 16 * lowerBound (idxSpec s 0) k :=
          lb_le_sample hs k (le_refl _) (by omega)
        exact offAt_lt_of_lt s (by omega) hlbn
      · rw [if_neg h2]
        exact offAt_lt_dataSize s hlbn
    rw [show sstGetAux ⟨s, idxSpec s 0, ⟨1, dataSize s, s.length⟩⟩ k
          = scanFrom k (sstEndOffset ⟨s, idxSpec s 0, ⟨1, dataSize s, s.length⟩⟩ k)
              ((withOffsets s 0).dropWhile (fun p =>
                p.1 < sstStartOffset ⟨s, idxSpec s 0, ⟨1, dataSize s, s.length⟩⟩ k)) from rfl,
      hstart, dropWhile_withOffsets_zero s t htn]
    exact sstScan_spec hs htlb hcnt hend

theorem writeSSTable_eq (es : List Entry) :
    writeSSTable es = ⟨sortEntries es, idxSpec (sortEntries es) 0,
      ⟨1, dataSize (sortEntries es), (sortEntries es).length⟩⟩ := by
  rw [show writeSSTable es = ⟨sortEntries es, buildIndexAux (sortEntries es) 0 0,
    ⟨1, dataSize (sortEntries es), (sortEntries es).length⟩⟩ from rfl, buildIndexAux_zero]

/-- Write-then-open-then-get computes the association lookup: the written
value (empty for a tombstone) with exists=true for present keys, a miss
for absent keys. -/
theorem sstGet_writeSSTable {es : List Entry} (hnd : keysNodup es) (k : String) :
    sstGet (writeSSTable es) k
      = (match lookupKey es k with
         | none => ("", false)
         | some e => ((if e.Deleted then "" else e.Value), true)) := by
  rw [sstGet, sstGetAux, writeSSTable_eq, ← sstGetAux]
  rw [(sstGetAux_idxSpec (sortEntries es) (keysSorted_sortEntries hnd) k).1]
  rw [lookupKey_perm (sortEntries_perm es) hnd k]

/-- One point lookup deserializes at most IndexInterval + 1 = 17 data
records. -/
theorem sstGetCount_writeSSTable {es : List Entry} (hnd : keysNodup es) (k : String) :
    sstGetCount (writeSSTable es) k ≤ IndexInterval + 1 := by
  rw [sstGetCount, sstGetAux, writeSSTable_eq, ← sstGetAux]
  exact (sstGetAux_idxSpec (sortEntries es) (keysSorted_sortEntries hnd) k).2

/-! ## Memtable (memtable.go)

The Go memtable is a `map[string]Entry` plus an approximate byte-size
counter.  The map is modelled as a list of entries with pairwise distinct
keys, keyed by each entry's `Key` field (`Put`/`Delete` always store the
entry under its own key). -/

/-- Map assignment `m.entries[key] = entry`: replace the entry carrying
the same key, or add the entry if the key is fresh. -/
def mtInsert : List Entry → Entry → List Entry
  | [], e => [e]
  | x :: rest, e => if x.Key = e.Key then e :: rest else x :: mtInsert rest e

structure Memtable where
  entries : List Entry
  size : Nat
deriving DecidableEq, Repr

/-- `NewMemtable`. -/
def emptyMemtable : Memtable := ⟨[], 0⟩

/-- `Memtable.Put`: subtract the replaced entry's key and value lengths
from the size counter, store the new entry, add the new lengths
(Go `len` on a string counts bytes). -/
def Memtable.put (m : Memtable) (k v : String) : Memtable :=
  let reduced :=
    match lookupKey m.entries k with
    | some old => m.size - (old.Key.utf8ByteSize + old.Value.utf8ByteSize)
    | none => m.size
  { entries := mtInsert m.entries ⟨k, v, false⟩
    size := reduced + k.utf8ByteSize + v.utf8ByteSize }

/-- `Memtable.Delete`: store a tombstone with an empty value; only the
key length is added to the size counter. -/
def Memtable.del (m : Memtable) (k : String) : Memtable :=
  let reduced :=
    match lookupKey m.entries k with
    | some old => m.size - (old.Key.utf8ByteSize + old.Value.utf8ByteSize)
    | none => m.size
  { entries := mtInsert m.entries ⟨k, "", true⟩
    size := reduced + k.utf8ByteSize }

/-- `Memtable.Get`: a miss both when the key is absent and when the
stored entry is a tombstone. -/
def Memtable.get (m : Memtable) (k : String) : Option String :=
  match lookupKey m.entries k with
  | none => none
  | some e => if e.Deleted then none else some e.Value

/-- `Memtable.IsEmpty`. -/
def Memtable.isEmpty (m : Memtable) : Bool :=
  m.entries.isEmpty

/-- `Memtable.GetSortedEntries`: the entries in ascending key order
(the Go code sorts the map's keys and reads the map back). -/
def Memtable.getSortedEntries (m : Memtable) : List Entry :=
  sortEntries m.entries

/-! ## LSM engine (sstable_db.go) -/

/-- `MemtableFlushThreshold` = 1 MiB. -/
def MemtableFlushThreshold : Nat := 1024 * 1024

/-- `CompactionThreshold` = 4 sorted tables. -/
def CompactionThreshold : Nat := 4

/-- `SSTableDB`: the data directory's contents are the table stack
(newest first); each stacked table stands for one `sstable_NNNNNN.sst`
file. -/
structure SSTableDB where
  memtable : Memtable
  sstables : List SSTable
  nextSSTableID : Nat
deriving DecidableEq, Repr

/-- `NewSSTableDB` on a fresh directory. -/
def newSSTableDB : SSTableDB := ⟨emptyMemtable, [], 0⟩

/-- `flushMemtable`: no-op when the memtable is empty; otherwise write
its key-sorted snapshot as the next table, prepend it to the stack
(newest first) and clear the memtable. -/
def flushMemtable (db : SSTableDB) : SSTableDB :=
  if db.memtable.isEmpty then db
  else
    { memtable := emptyMemtable
      sstables := writeSSTable db.memtable.getSortedEntries :: db.sstables
      nextSSTableID := db.nextSSTableID + 1 }

/-- Map assignment `allEntries[entry.Key] = entry` during compaction. -/
def insertAssoc : List (String × Entry) → Entry → List (String × Entry)
  | [], e => [(e.Key, e)]
  | (k', e') :: rest, e => if k' = e.Key then (e.Key, e) :: rest else (k', e') :: insertAssoc rest e

/-- The key → latest-record map that `compact` builds by reading every
table from oldest to newest (so records of newer tables overwrite those
of older ones).  The Go map's iteration order is unspecified; the model
keeps the association list in first-insertion order, which the later sort
makes irrelevant. -/
def collectEntries : List SSTable → List (String × Entry)
  | [] => []
  | t :: rest => (getAllEntries t).foldl (fun m e => insertAssoc m e) (collectEntries rest)

/-- `compact` (the internal step): a no-op below two tables, otherwise
merge all tables into the key → latest-record map, drop tombstones, and
replace the stack with the single table of the sorted survivors — or with
nothing if every surviving record was a tombstone. -/
def compactStep (db : SSTableDB) : SSTableDB :=
  if db.sstables.length < 2 then db
  else
    let compacted := ((collectEntries db.sstables).map (fun p => p.2)).filter
      (fun e => !e.Deleted)
    if compacted.isEmpty then { db with sstables := [] }
    else
      { memtable := db.memtable
        sstables := [writeSSTable (sortEntries compacted)]
        nextSSTableID := db.nextSSTableID + 1 }

/-- The table-stack part of `SSTableDB.Read`: walk newest to oldest; the
first table answering exists=true ends the search, an empty value there
meaning a tombstone (NotFound). -/
def readStack : List SSTable → String → Option String
  | [], _ => none
  | t :: rest, k =>
      match sstGet t k with
      | (v, found) =>
          if found then (if v = "" then none else some v)
          else readStack rest k

/-- `SSTableDB.Read`: memtable first (where `Get` reports tombstones as
plain misses), then the table stack. -/
def lsmRead (db : SSTableDB) (k : String) : Option String :=
  match db.memtable.get k with
  | some v => some v
  | none => readStack db.sstables k

/-- `SSTableDB.Write`: put into the memtable; at or above the flush
threshold, flush, and then compact if the stack has reached the
compaction threshold. -/
def lsmWrite (db : SSTableDB) (k v : String) : SSTableDB :=
  let db1 : SSTableDB := { db with memtable := db.memtable.put k v }
  if MemtableFlushThreshold ≤ db1.memtable.size then
    let db2 := flushMemtable db1
    if CompactionThreshold ≤ db2.sstables.length then compactStep db2 else db2
  else db1

/-- `SSTableDB.Delete`: like `Write`, with a tombstone. -/
def lsmDelete (db : SSTableDB) (k : String) : SSTableDB :=
  let db1 : SSTableDB := { db with memtable := db.memtable.del k }
  if MemtableFlushThreshold ≤ db1.memtable.size then
    let db2 := flushMemtable db1
    if CompactionThreshold ≤ db2.sstables.length then compactStep db2 else db2
  else db1

/-- `SSTableDB.Compact`: flush the memtable if non-empty, then run the
internal compaction step (`flushMemtable` already no-ops when empty). -/
def lsmCompact (db : SSTableDB) : SSTableDB :=
  compactStep (flushMemtable db)

/-- `SSTableDB.Flush`. -/
def lsmFlush (db : SSTableDB) : SSTableDB :=
  flushMemtable db

/-! ### Facts about the memtable map -/

theorem lookupKey_nil (k : String) : lookupKey [] k = none := rfl

theorem lookupKey_cons_self {e : Entry} {l : List Entry} {k : String} (h : e.Key = k) :
    lookupKey (e :: l) k = some e := by
  rw [lookupKey, List.find?_cons_of_pos]
  simp [h]

theorem lookupKey_cons_ne {e : Entry} {l : List Entry} {k : String} (h : ¬ e.Key = k) :
    lookupKey (e :: l) k = lookupKey l k := by
  rw [lookupKey, List.find?_cons_of_neg]
  · rfl
  · simp [h]

theorem lookupKey_mtInsert (l : List Entry) (e : Entry) (k : String) :
    lookupKey (mtInsert l e) k = if e.Key = k then some e else lookupKey l k := by
  induction l with
  | nil =>
      rw [show mtInsert [] e = [e] from rfl]
      by_cases h : e.Key = k
      · rw [if_pos h, lookupKey_cons_self h]
      · rw [if_neg h, lookupKey_cons_ne h]
  | cons x rest ih =>
      by_cases hx : x.Key = e.Key
      · rw [mtInsert, if_pos hx]
        by_cases h : e.Key = k
        · rw [if_pos h, lookupKey_cons_self h]
        · rw [if_neg h, lookupKey_cons_ne h, lookupKey_cons_ne (by rw [hx]; exact h)]
      · rw [mtInsert, if_neg hx]
        by_cases hk : x.Key = k
        · have hek : ¬ e.Key = k := fun hc => hx (by rw [hk, hc])
          rw [if_neg hek, lookupKey_cons_self hk, lookupKey_cons_self hk]
        · rw [lookupKey_cons_ne hk, lookupKey_cons_ne hk, ih]

theorem keysNodup_mtInsert {l : List Entry} (hnd : keysNodup l) (e : Entry) :
    keysNodup (mtInsert l e) := by
  induction l with
  | nil => simp [mtInsert, keysNodup]
  | cons x rest ih =>
      rw [keysNodup, List.map_cons, List.nodup_cons] at hnd
      by_cases hx : x.Key = e.Key
      · rw [mtInsert, if_pos hx, keysNodup, List.map_cons, List.nodup_cons]
        exact ⟨by rw [← hx]; exact hnd.1, hnd.2⟩
      · rw [mtInsert, if_neg hx, keysNodup, List.map_cons, List.nodup_cons]
        constructor
        · intro hc
          rcases List.mem_map.1 hc with ⟨y, hy, hyk⟩
          -- y is an entry of mtInsert rest e whose key equals x.Key
          have : lookupKey (mtInsert rest e) x.Key ≠ none := by
            intro hnone
            exact (lookupKey_eq_none_iff.1 hnone) y hy hyk
          rw [lookupKey_mtInsert] at this
          by_cases he : e.Key = x.Key
          · exact hx he.symm
          · rw [if_neg he] at this
            rcases ho : lookupKey rest x.Key with _ | z
            · exact this ho
            · have hz := List.mem_of_find?_eq_some ho
              have hzk := List.find?_some ho
              simp only [beq_iff_eq] at hzk
              exact hnd.1 (List.mem_map.2 ⟨z, hz, hzk⟩)
        · exact ih hnd.2

theorem mtInsert_ne_nil (l : List Entry) (e : Entry) : mtInsert l e ≠ [] := by
  cases l with
  | nil => simp [mtInsert]
  | cons x rest =>
      rw [mtInsert]
      split <;> simp

/-! ### Facts about the compaction map -/

/-- Lookup in the compaction association map. -/
def lookupAssoc (m : List (String × Entry)) (k : String) : Option Entry :=
  (m.find? (fun p => p.1 == k)).map (fun p => p.2)

/-- Newest-first search of the table stack for the record carrying a
key: the specification-side effective record of the stack. -/
def stackLookup : List SSTable → String → Option Entry
  | [], _ => none
  | t :: rest, k => (lookupKey t.entries k) <|> stackLookup rest k

theorem lookupAssoc_cons_self {k' : String} {e' : Entry} {rest : List (String × Entry)}
    {k : String} (h : k' = k) : lookupAssoc ((k', e') :: rest) k = some e' := by
  rw [lookupAssoc, List.find?_cons_of_pos]
  · rfl
  · simp [h]

theorem lookupAssoc_cons_ne {k' : String} {e' : Entry} {rest : List (String × Entry)}
    {k : String} (h : ¬ k' = k) : lookupAssoc ((k', e') :: rest) k = lookupAssoc rest k := by
  rw [lookupAssoc, List.find?_cons_of_neg]
  · rfl
  · simp [h]

theorem lookupAssoc_insertAssoc (m : List (String × Entry)) (e : Entry) (k : String) :
    lookupAssoc (insertAssoc m e) k = if e.Key = k then some e else lookupAssoc m k := by
  induction m with
  | nil =>
      rw [show insertAssoc [] e = [(e.Key, e)] from rfl]
      by_cases h : e.Key = k
      · rw [if_pos h, lookupAssoc_cons_self h]
      · rw [if_neg h, lookupAssoc_cons_ne h]
  | cons p rest ih =>
      obtain ⟨k', e'⟩ := p
      by_cases hx : k' = e.Key
      · rw [insertAssoc, if_pos hx]
        by_cases h : e.Key = k
        · rw [if_pos h, lookupAssoc_cons_self h]
        · rw [if_neg h, lookupAssoc_cons_ne h, lookupAssoc_cons_ne (by rw [hx]; exact h)]
      · rw [insertAssoc, if_neg hx]
        by_cases hk : k' = k
        · have hek : ¬ e.Key = k := fun hc => hx (by rw [hk, hc])
          rw [if_neg hek, lookupAssoc_cons_self hk, lookupAssoc_cons_self hk]
        · rw [lookupAssoc_cons_ne hk, lookupAssoc_cons_ne hk, ih]

/-- Inserting a table's records (distinct keys, in file order) lets the
table's own record win over the accumulated older ones. -/
theorem lookupAssoc_foldl {es : List Entry} (hnd : keysNodup es)
    (m : List (String × Entry)) (k : String) :
    lookupAssoc (es.foldl (fun acc e => insertAssoc acc e) m) k
      = ((lookupKey es k) <|> lookupAssoc m k) := by
  induction es generalizing m with
  | nil => simp [lookupKey, List.find?]
  | cons e rest ih =>
      rw [keysNodup, List.map_cons, List.nodup_cons] at hnd
      rw [List.foldl_cons, ih hnd.2]
      by_cases h : e.Key = k
      · have hr : lookupKey rest k = none := by
          rw [lookupKey_eq_none_iff]
          intro x hx hxk
          exact hnd.1 (List.mem_map.2 ⟨x, hx, hxk.trans h.symm⟩)
        rw [lookupKey_cons_self h, hr, lookupAssoc_insertAssoc, if_pos h]
        rfl
      · rw [lookupKey_cons_ne h, lookupAssoc_insertAssoc, if_neg h]

/-- Well-formed tables: produced by the writer from distinct-key records. -/
def SSTWF (t : SSTable) : Prop :=
  ∃ es, keysNodup es ∧ t = writeSSTable es

theorem keysNodup_sortEntries {es : List Entry} (hnd : keysNodup es) :
    keysNodup (sortEntries es) := by
  rw [keysNodup] at hnd ⊢
  exact ((sortEntries_perm es).map (fun e => e.Key)).nodup_iff.2 hnd

theorem SSTWF.entries_nodup {t : SSTable} (h : SSTWF t) : keysNodup t.entries := by
  obtain ⟨es, hnd, rfl⟩ := h
  exact keysNodup_sortEntries hnd

theorem SSTWF.lookup_entries {t : SSTable} (h : SSTWF t) (k : String) :
    sstGet t k = (match lookupKey t.entries k with
      | none => ("", false)
      | some e => ((if e.Deleted then "" else e.Value), true)) := by
  obtain ⟨es, hnd, rfl⟩ := h
  rw [sstGet_writeSSTable hnd k]
  have hperm : lookupKey (writeSSTable es).entries k = lookupKey es k :=
    lookupKey_perm (sortEntries_perm es) hnd k
  rw [hperm]

/-- The compaction map holds, for each key, the record of the newest
table containing it. -/
theorem collectEntries_lookup {ts : List SSTable} (h : ∀ t ∈ ts, SSTWF t) (k : String) :
    lookupAssoc (collectEntries ts) k = stackLookup ts k := by
  induction ts with
  | nil => rfl
  | cons t rest ih =>
      rw [collectEntries, stackLookup, show getAllEntries t = t.entries from rfl]
      rw [lookupAssoc_foldl ((h t (by simp)).entries_nodup)]
      rw [ih (fun t' ht' => h t' (by simp [ht']))]

/-- The compaction map binds each key to a record carrying that key, and
its keys are distinct. -/
def assocWF (m : List (String × Entry)) : Prop :=
  (m.map (fun p => p.1)).Nodup ∧ ∀ p ∈ m, p.2.Key = p.1

theorem assocWF_insertAssoc {m : List (String × Entry)} (h : assocWF m) (e : Entry) :
    assocWF (insertAssoc m e) := by
  obtain ⟨hnd, hkeys⟩ := h
  induction m with
  | nil => exact ⟨by simp [insertAssoc], by simp [insertAssoc]⟩
  | cons p rest ih =>
      obtain ⟨k', e'⟩ := p
      rw [List.map_cons, List.nodup_cons] at hnd
      by_cases hx : k' = e.Key
      · rw [insertAssoc, if_pos hx]
        refine ⟨?_, ?_⟩
        · rw [List.map_cons, List.nodup_cons]
          exact ⟨by rw [← hx]; exact hnd.1, hnd.2⟩
        · intro p hp
          rcases List.mem_cons.1 hp with h | h
          · rw [h]
          · exact hkeys p (by simp [h])
      · rw [insertAssoc, if_neg hx]
        have hrest := ih hnd.2 (fun p hp => hkeys p (by simp [hp]))
        refine ⟨?_, ?_⟩
        · rw [List.map_cons, List.nodup_cons]
          refine ⟨?_, hrest.1⟩
          intro hc
          rcases List.mem_map.1 hc with ⟨q, hq, hqk⟩
          -- q is a binding of insertAssoc rest e with key k'
          have hsome : lookupAssoc (insertAssoc rest e) k' ≠ none := by
            intro hnone
            rw [lookupAssoc] at hnone
            rcases hf : (insertAssoc rest e).find? (fun p => p.1 == k') with _ | q'
            · rw [List.find?_eq_none] at hf
              exact hf q hq (by simp [hqk])
            · rw [hf] at hnone
              simp at hnone
          rw [lookupAssoc_insertAssoc, if_neg (fun hc' => hx hc'.symm)] at hsome
          rcases ho : lookupAssoc rest k' with _ | z
          · exact hsome ho
          · rw [lookupAssoc] at ho
            rcases hf : rest.find? (fun p => p.1 == k') with _ | q'
            · rw [hf] at ho
              simp at ho
            · have hq' := List.mem_of_find?_eq_some hf
              have hq'k := List.find?_some hf
              simp only [beq_iff_eq] at hq'k
              exact hnd.1 (List.mem_map.2 ⟨q', hq', hq'k⟩)
        · intro p hp
          rcases List.mem_cons.1 hp with h | h
          · rw [h]
            exact hkeys (k', e') (by simp)
          · have : assocWF (insertAssoc rest e) := hrest
            exact this.2 p h

theorem assocWF_foldl {es : List Entry} {m : List (String × Entry)} (h : assocWF m) :
    assocWF (es.foldl (fun acc e => insertAssoc acc e) m) := by
  induction es generalizing m with
  | nil => exact h
  | cons e rest ih => exact ih (assocWF_insertAssoc h e)

theorem assocWF_collectEntries (ts : List SSTable) : assocWF (collectEntries ts) := by
  induction ts with
  | nil => exact ⟨List.nodup_nil, by simp [collectEntries]⟩
  | cons t rest ih => exact assocWF_foldl ih

theorem keysNodup_values {m : List (String × Entry)} (h : assocWF m) :
    keysNodup (m.map (fun p => p.2)) := by
  rw [keysNodup, List.map_map]
  rw [show ((fun e : Entry => e.Key) ∘ fun p : String × Entry => p.2)
      = (fun p : String × Entry => p.2.Key) from rfl]
  rw [List.map_congr_left (fun p hp => h.2 p hp)]
  exact h.1

theorem lookupKey_values {m : List (String × Entry)} (h : assocWF m) (k : String) :
    lookupKey (m.map (fun p => p.2)) k = lookupAssoc m k := by
  induction m with
  | nil => rfl
  | cons p rest ih =>
      obtain ⟨k', e'⟩ := p
      have hwf : e'.Key = k' := h.2 (k', e') (by simp)
      have htail : assocWF rest := by
        obtain ⟨hnd, hkeys⟩ := h
        rw [List.map_cons, List.nodup_cons] at hnd
        exact ⟨hnd.2, fun q hq => hkeys q (by simp [hq])⟩
      rw [List.map_cons]
      by_cases hk : k' = k
      · rw [lookupKey_cons_self (by rw [hwf, hk]), lookupAssoc_cons_self hk]
      · rw [lookupKey_cons_ne (by rw [hwf]; exact hk), lookupAssoc_cons_ne hk]
        exact ih htail

theorem keysNodup_filter {l : List Entry} (hnd : keysNodup l) (p : Entry → Bool) :
    keysNodup (l.filter p) := by
  rw [keysNodup] at hnd ⊢
  exact List.Nodup.sublist ((List.filter_sublist l).map (fun e => e.Key)) hnd

theorem lookupKey_filter {l : List Entry} (hnd : keysNodup l) (p : Entry → Bool) (k : String) :
    lookupKey (l.filter p) k
      = (lookupKey l k).bind (fun e => if p e then some e else none) := by
  rcases hlk : lookupKey l k with _ | e
  · rw [lookupKey_eq_none_iff] at hlk
    rw [show lookupKey (l.filter p) k = none by
      rw [lookupKey_eq_none_iff]
      intro e he
      exact hlk e (List.mem_of_mem_filter he)]
    rfl
  · rw [lookupKey_eq_some_iff hnd] at hlk
    obtain ⟨hmem, hkey⟩ := hlk
    by_cases hp : p e
    · rw [show lookupKey (l.filter p) k = some e by
        rw [lookupKey_eq_some_iff (keysNodup_filter hnd p)]
        exact ⟨List.mem_filter.2 ⟨hmem, hp⟩, hkey⟩]
      simp [hp]
    · rw [show lookupKey (l.filter p) k = none by
        rw [lookupKey_eq_none_iff]
        intro x hx hxk
        have hx' := List.mem_filter.1 hx
        have : x = e := eq_of_mem_of_same_key hnd hx'.1 hmem (hxk.trans hkey.symm)
        rw [this] at hx'
        exact hp hx'.2]
      simp [hp]

/-! ### Memtable and flush facts -/

theorem put_not_isEmpty (m : Memtable) (k v : String) :
    (Memtable.put m k v).isEmpty = false := by
  rw [Memtable.isEmpty, List.isEmpty_eq_false]
  exact mtInsert_ne_nil _ _

theorem del_not_isEmpty (m : Memtable) (k : String) :
    (Memtable.del m k).isEmpty = false := by
  rw [Memtable.isEmpty, List.isEmpty_eq_false]
  exact mtInsert_ne_nil _ _

theorem flushMemtable_of_nonempty {db : SSTableDB} (h : db.memtable.isEmpty = false) :
    flushMemtable db
      = { memtable := emptyMemtable
          sstables := writeSSTable db.memtable.getSortedEntries :: db.sstables
          nextSSTableID := db.nextSSTableID + 1 } := by
  rw [flushMemtable, if_neg]
  simp [h]

theorem SSTWF_flush_table {m : Memtable} (hnd : keysNodup m.entries) :
    SSTWF (writeSSTable m.getSortedEntries) :=
  ⟨m.getSortedEntries, keysNodup_sortEntries hnd, rfl⟩

theorem flush_table_lookup {m : Memtable} (hnd : keysNodup m.entries) (k : String) :
    lookupKey (writeSSTable m.getSortedEntries).entries k = lookupKey m.entries k := by
  rw [show (writeSSTable m.getSortedEntries).entries = sortEntries m.getSortedEntries from rfl]
  rw [Memtable.getSortedEntries]
  have h1 : (sortEntries (sortEntries m.entries)).Perm m.entries :=
    (sortEntries_perm _).trans (sortEntries_perm _)
  exact lookupKey_perm h1 hnd k

/-- The table-stack read resolves the newest record carrying the key:
tombstones and empty values read as NotFound. -/
theorem readStack_eq {ts : List SSTable} (h : ∀ t ∈ ts, SSTWF t) (k : String) :
    readStack ts k
      = (match stackLookup ts k with
         | none => none
         | some e => if e.Deleted then none else (if e.Value = "" then none else some e.Value)) := by
  induction ts with
  | nil => rfl
  | cons t rest ih =>
      rw [readStack, stackLookup, (h t (by simp)).lookup_entries k]
      rcases hlk : lookupKey t.entries k with _ | e
      · rw [show ((none : Option Entry) <|> stackLookup rest k) = stackLookup rest k from rfl]
        exact ih (fun t' ht' => h t' (by simp [ht']))
      · rw [show ((some e : Option Entry) <|> stackLookup rest k) = some e from rfl]
        cases hd : e.Deleted
        · simp only [hd, if_false, Bool.false_eq_true]
          by_cases hv : e.Value = "" <;> simp [hv]
        · simp [hd]

theorem orElse_none (x : Option Entry) : (x <|> none) = x := by
  cases x <;> rfl

theorem writeSSTable_entries (es : List Entry) :
    (writeSSTable es).entries = sortEntries es := rfl

theorem lsmRead_emptyMem (ts : List SSTable) (nid : Nat) (k : String) :
    lsmRead ⟨emptyMemtable, ts, nid⟩ k = readStack ts k := rfl

/-- Latest-writer-wins record of an LSM state for a key: the memtable's
record if any, else the newest stacked table's. -/
def lsmEffEntry (db : SSTableDB) (k : String) : Option Entry :=
  (lookupKey db.memtable.entries k) <|> stackLookup db.sstables k

/-- Flushing a non-empty memtable and compacting leaves at most one
table, and afterwards every key reads exactly as its latest-writer-wins
record resolves: a value for a live non-empty-valued record, NotFound for
tombstoned, empty-valued or absent keys. -/
theorem compactStep_flush_spec {db : SSTableDB}
    (hmem : keysNodup db.memtable.entries)
    (hne : db.memtable.isEmpty = false)
    (htw : ∀ t ∈ db.sstables, SSTWF t)
    (hlen : 1 ≤ db.sstables.length) :
    (compactStep (flushMemtable db)).sstables.length ≤ 1
      ∧ ∀ k, lsmRead (compactStep (flushMemtable db)) k
          = (match lsmEffEntry db k with
             | none => none
             | some e => if e.Deleted then none
                 else (if e.Value = "" then none else some e.Value)) := by
  rw [flushMemtable_of_nonempty hne]
  have htw' : ∀ t ∈ writeSSTable db.memtable.getSortedEntries :: db.sstables, SSTWF t := by
    intro t ht
    rcases List.mem_cons.1 ht with h | h
    · rw [h]
      exact SSTWF_flush_table hmem
    · exact htw t h
  have hstack : ∀ k, stackLookup (writeSSTable db.memtable.getSortedEntries :: db.sstables) k
      = lsmEffEntry db k := by
    intro k
    rw [stackLookup, flush_table_lookup hmem]
    rfl
  have hAW := assocWF_collectEntries (writeSSTable db.memtable.getSortedEntries :: db.sstables)
  have hvals : ∀ k, lookupKey
      ((collectEntries (writeSSTable db.memtable.getSortedEntries :: db.sstables)).map
        (fun p => p.2)) k = lsmEffEntry db k := by
    intro k
    rw [lookupKey_values hAW, collectEntries_lookup htw', hstack]
  have hvnd : keysNodup
      ((collectEntries (writeSSTable db.memtable.getSortedEntries :: db.sstables)).map
        (fun p => p.2)) := keysNodup_values hAW
  have hfilter : ∀ k, lookupKey
      (((collectEntries (writeSSTable db.memtable.getSortedEntries :: db.sstables)).map
        (fun p => p.2)).filter (fun e => !e.Deleted)) k
      = (lsmEffEntry db k).bind (fun e => if !e.Deleted then some e else none) := by
    intro k
    rw [lookupKey_filter hvnd, hvals]
  rw [compactStep, if_neg (by
    simp only [List.length_cons, not_lt]
    omega)]
  simp only
  by_cases hc : (((collectEntries (writeSSTable db.memtable.getSortedEntries :: db.sstables)).map
      (fun p => p.2)).filter (fun e => !e.Deleted)).isEmpty
  · rw [if_pos hc]
    refine ⟨by simp, ?_⟩
    intro k
    rw [lsmRead_emptyMem]
    rw [show readStack ([] : List SSTable) k = none from rfl]
    rcases he : lsmEffEntry db k with _ | e
    · rfl
    · have h1 := hfilter k
      rw [he, List.isEmpty_iff.1 hc, lookupKey_nil] at h1
      cases hd : e.Deleted
      · simp [hd] at h1
      · simp [hd]
  · rw [if_neg hc]
    refine ⟨by simp, ?_⟩
    intro k
    have hnd2 : keysNodup
        (((collectEntries (writeSSTable db.memtable.getSortedEntries :: db.sstables)).map
          (fun p => p.2)).filter (fun e => !e.Deleted)) := keysNodup_filter hvnd _
    have hWFC : SSTWF (writeSSTable (sortEntries
        (((collectEntries (writeSSTable db.memtable.getSortedEntries :: db.sstables)).map
          (fun p => p.2)).filter (fun e => !e.Deleted)))) :=
      ⟨_, keysNodup_sortEntries hnd2, rfl⟩
    rw [lsmRead_emptyMem]
    rw [readStack_eq (by
      intro t ht
      rw [List.mem_singleton.1 ht]
      exact hWFC) k]
    rw [stackLookup, show stackLookup ([] : List SSTable) k = none from rfl,
      orElse_none, writeSSTable_entries]
    rw [lookupKey_perm ((sortEntries_perm _).trans (sortEntries_perm _)) hnd2 k]
    rw [hfilter k]
    rcases he : lsmEffEntry db k with _ | e
    · rfl
    · cases hd : e.Deleted
      · by_cases hv : e.Value = "" <;> simp [hd, hv]
      · simp [hd]

theorem lsmWrite_flush_compact {db : SSTableDB} {k v : String}
    (hsize : MemtableFlushThreshold ≤ (db.memtable.put k v).size)
    (hstack : CompactionThreshold ≤ db.sstables.length) :
    lsmWrite db k v
      = compactStep (flushMemtable { db with memtable := db.memtable.put k v }) := by
  rw [lsmWrite]
  simp only [hsize, if_pos]
  rw [flushMemtable_of_nonempty (put_not_isEmpty db.memtable k v)]
  rw [if_pos (by
    simp only [List.length_cons]
    rw [show CompactionThreshold = 4 from rfl] at hstack ⊢
    omega)]

theorem memtable_get_put (m : Memtable) (k v : String) : (m.put k v).get k = some v := by
  rw [Memtable.get, show (m.put k v).entries = mtInsert m.entries ⟨k, v, false⟩ from rfl,
    lookupKey_mtInsert]
  simp

theorem lsmWrite_noflush {db : SSTableDB} {k v : String}
    (hsize : (db.memtable.put k v).size < MemtableFlushThreshold) :
    lsmWrite db k v = { db with memtable := db.memtable.put k v } := by
  rw [lsmWrite]
  simp only
  rw [if_neg (by omega)]

/-- Write-then-read through the memtable returns the value just
written (any value, the empty string included). -/
theorem lsm_write_read {db : SSTableDB} {k v : String}
    (hsize : (db.memtable.put k v).size < MemtableFlushThreshold) :
    lsmRead (lsmWrite db k v) k = some v := by
  rw [lsmWrite_noflush hsize]
  show (match (db.memtable.put k v).get k with
        | some v => some v
        | none => readStack db.sstables k) = some v
  rw [memtable_get_put]

/-- Write, flush, read: a non-empty value survives the move into a
sorted table. -/
theorem lsm_write_flush_read {db : SSTableDB} {k v : String}
    (hmem : keysNodup db.memtable.entries) (hv : v ≠ "")
    (hsize : (db.memtable.put k v).size < MemtableFlushThreshold) :
    lsmRead (lsmFlush (lsmWrite db k v)) k = some v := by
  rw [lsmWrite_noflush hsize, lsmFlush,
    flushMemtable_of_nonempty (put_not_isEmpty db.memtable k v)]
  dsimp only
  rw [lsmRead_emptyMem, readStack]
  have hmem1 : keysNodup (db.memtable.put k v).entries :=
    keysNodup_mtInsert hmem ⟨k, v, false⟩
  rw [(SSTWF_flush_table hmem1).lookup_entries k, flush_table_lookup hmem1 k]
  rw [show (db.memtable.put k v).entries = mtInsert db.memtable.entries ⟨k, v, false⟩ from rfl,
    lookupKey_mtInsert]
  simp [hv]

/-- `Write` above the flush threshold when the flushed stack reaches the
compaction threshold: flush, then compact.  (The Go code tests the stack
length after the flush has prepended the new table.) -/
theorem lsmWrite_flush_compact_post {db : SSTableDB} {k v : String}
    (hsize : MemtableFlushThreshold ≤ (db.memtable.put k v).size)
    (hstack : CompactionThreshold ≤ db.sstables.length + 1) :
    lsmWrite db k v
      = compactStep (flushMemtable { db with memtable := db.memtable.put k v }) := by
  rw [lsmWrite]
  simp only [hsize, if_pos]
  rw [flushMemtable_of_nonempty (put_not_isEmpty db.memtable k v)]
  rw [if_pos (by
    simp only [List.length_cons]
    rw [show CompactionThreshold = 4 from rfl] at hstack ⊢
    omega)]

/-- `Write` above the flush threshold with too few tables to compact:
just the flush. -/
theorem lsmWrite_flush_nocompact {db : SSTableDB} {k v : String}
    (hsize : MemtableFlushThreshold ≤ (db.memtable.put k v).size)
    (hstack : db.sstables.length + 1 < CompactionThreshold) :
    lsmWrite db k v = flushMemtable { db with memtable := db.memtable.put k v } := by
  rw [lsmWrite]
  simp only [hsize, if_pos]
  rw [flushMemtable_of_nonempty (put_not_isEmpty db.memtable k v)]
  rw [if_neg (by
    simp only [List.length_cons]
    rw [show CompactionThreshold = 4 from rfl] at hstack ⊢
    omega)]

/-- After a put, the latest-writer-wins record of the key is the record
just put. -/
theorem lsmEffEntry_put (db : SSTableDB) (k v : String) :
    lsmEffEntry { db with memtable := db.memtable.put k v } k = some ⟨k, v, false⟩ := by
  rw [lsmEffEntry]
  show (lookupKey (mtInsert db.memtable.entries ⟨k, v, false⟩) k
    <|> stackLookup db.sstables k) = some ⟨k, v, false⟩
  rw [lookupKey_mtInsert]
  simp

/-- Write-then-read when the write itself crosses the flush threshold:
the automatic flush (with or without the ensuing compaction) keeps a
non-empty value readable. -/
theorem lsm_write_autoflush_read {db : SSTableDB} {k v : String}
    (hmem : keysNodup db.memtable.entries) (hv : v ≠ "")
    (htw : ∀ t ∈ db.sstables, SSTWF t)
    (hsize : MemtableFlushThreshold ≤ (db.memtable.put k v).size) :
    lsmRead (lsmWrite db k v) k = some v := by
  have hmem1 : keysNodup (db.memtable.put k v).entries :=
    keysNodup_mtInsert hmem ⟨k, v, false⟩
  by_cases hstack : CompactionThreshold ≤ db.sstables.length + 1
  · have hspec : (compactStep (flushMemtable
          { db with memtable := db.memtable.put k v })).sstables.length ≤ 1
        ∧ ∀ q, lsmRead (compactStep (flushMemtable
            { db with memtable := db.memtable.put k v })) q
          = (match lsmEffEntry { db with memtable := db.memtable.put k v } q with
             | none => none
             | some e => if e.Deleted then none
                 else (if e.Value = "" then none else some e.Value)) :=
      compactStep_flush_spec hmem1 (put_not_isEmpty db.memtable k v) htw
        (by
          show 1 ≤ db.sstables.length
          rw [show CompactionThreshold = 4 from rfl] at hstack
          omega)
    rw [lsmWrite_flush_compact_post hsize hstack, hspec.2 k, lsmEffEntry_put db k v]
    simp [hv]
  · rw [lsmWrite_flush_nocompact hsize
      (by rw [show CompactionThreshold = 4 from rfl] at hstack ⊢; omega)]
    rw [flushMemtable_of_nonempty (put_not_isEmpty db.memtable k v)]
    dsimp only
    rw [lsmRead_emptyMem, readStack]
    rw [(SSTWF_flush_table hmem1).lookup_entries k, flush_table_lookup hmem1 k]
    rw [show (db.memtable.put k v).entries = mtInsert db.memtable.entries ⟨k, v, false⟩ from rfl,
      lookupKey_mtInsert]
    simp [hv]

/-- Flush-then-compact removes every table when each key's latest record
is a tombstone. -/
theorem compactStep_flush_empty {db : SSTableDB}
    (hmem : keysNodup db.memtable.entries)
    (hne : db.memtable.isEmpty = false)
    (htw : ∀ t ∈ db.sstables, SSTWF t)
    (hlen : 1 ≤ db.sstables.length)
    (htomb : ∀ k e, lsmEffEntry db k = some e → e.Deleted = true) :
    (compactStep (flushMemtable db)).sstables = [] := by
  rw [flushMemtable_of_nonempty hne]
  have htw' : ∀ t ∈ writeSSTable db.memtable.getSortedEntries :: db.sstables, SSTWF t := by
    intro t ht
    rcases List.mem_cons.1 ht with h | h
    · rw [h]
      exact SSTWF_flush_table hmem
    · exact htw t h
  have hstack : ∀ k, stackLookup (writeSSTable db.memtable.getSortedEntries :: db.sstables) k
      = lsmEffEntry db k := by
    intro k
    rw [stackLookup, flush_table_lookup hmem]
    rfl
  have hAW := assocWF_collectEntries (writeSSTable db.memtable.getSortedEntries :: db.sstables)
  have hvals : ∀ k, lookupKey
      ((collectEntries (writeSSTable db.memtable.getSortedEntries :: db.sstables)).map
        (fun p => p.2)) k = lsmEffEntry db k := by
    intro k
    rw [lookupKey_values hAW, collectEntries_lookup htw', hstack]
  have hvnd : keysNodup
      ((collectEntries (writeSSTable db.memtable.getSortedEntries :: db.sstables)).map
        (fun p => p.2)) := keysNodup_values hAW
  have hfil : (((collectEntries (writeSSTable db.memtable.getSortedEntries :: db.sstables)).map
      (fun p => p.2)).filter (fun e => !e.Deleted)) = [] := by
    rw [List.filter_eq_nil_iff]
    intro e he
    have hl : lookupKey
        ((collectEntries (writeSSTable db.memtable.getSortedEntries :: db.sstables)).map
          (fun p => p.2)) e.Key = some e :=
      (lookupKey_eq_some_iff hvnd).2 ⟨he, rfl⟩
    have heff : lsmEffEntry db e.Key = some e := by
      rw [← hvals e.Key]
      exact hl
    have hd := htomb e.Key e heff
    simp [hd]
  have hEmpty : ((((collectEntries
      (writeSSTable db.memtable.getSortedEntries :: db.sstables)).map
      (fun p => p.2)).filter (fun e => !e.Deleted)).isEmpty) = true := by
    rw [hfil]
    rfl
  rw [compactStep, if_neg (by
    simp only [List.length_cons, not_lt]
    omega)]
  simp only
  rw [if_pos hEmpty]

/-! ### The internal compaction step below two tables -/

theorem compactStep_noop {db : SSTableDB} (h : db.sstables.length < 2) :
    compactStep db = db := by
  rw [compactStep, if_pos h]

theorem lsmCompact_single_table {db : SSTableDB}
    (hstack : db.sstables = []) (hne : db.memtable.isEmpty = false) :
    lsmCompact db
      = { memtable := emptyMemtable
          sstables := [writeSSTable db.memtable.getSortedEntries]
          nextSSTableID := db.nextSSTableID + 1 } := by
  rw [lsmCompact, flushMemtable_of_nonempty hne, hstack]
  exact compactStep_noop (by simp)

/-! ## Log engine (log.go, package logdb) -/

namespace logdb

/-- `LogEntry`: `json.Marshal` emits
`\x7b"key":K,"value":V,"deleted":D\x7d`. -/
structure LogEntry where
  key : String
  value : String
  deleted : Bool
deriving DecidableEq, Repr

/-- One line of the log file, as the two readers classify it: a
canonically-serialized current-shape record, a single-entry legacy
record, or an unparsable line of a given byte length. -/
inductive LogLine where
  | current (k v : String) (d : Bool)
  | legacy (k v : String)
  | malformed (size : Nat)
deriving DecidableEq, Repr

/-- Byte length of a line including its trailing newline.  The current
shape's fixed punctuation and field names (`\x7b"key":…,"value":…,"deleted":…\x7d`)
occupy 28 bytes, the boolean 4 or 5; the legacy shape `\x7bK:V\x7d` has 3 fixed
bytes. -/
def lineSize : LogLine → Nat
  | .current k v d => 28 + jsonStringSize k + jsonStringSize v + (if d then 4 else 5) + 1
  | .legacy k v => 3 + jsonStringSize k + jsonStringSize v + 1
  | .malformed n => n + 1

/-- Total byte size of the log file. -/
def logFileSize (lines : List LogLine) : Nat :=
  (lines.map lineSize).sum

/-- Whether a legacy line's single JSON key binds the `LogEntry` struct's
`key` field: Go json matching is case-insensitive, which for the ASCII
name `key` is ASCII case folding.  (Go's `EqualFold` additionally folds a
few exotic characters such as the Kelvin sign; those never spell a field
name and are outside the model.) -/
def isKeyField (s : String) : Bool := s.data.map Char.toLower == "key".data

/-- How both `Read` and `compact` parse one line.  Both first unmarshal
into the current `LogEntry` shape and accept the result when the decoded
key is non-empty.  That accepts a current line with a non-empty key, but
also a legacy line `\x7bK:V\x7d` whose single pair binds the struct's `key`
field (K a case variant of `key`) with a non-empty V: it decodes as a
record for key V with empty value.  A current line with an empty key
falls through to the legacy `map[string]string` parse, which fails on the
boolean field, so the line is skipped; every other legacy line yields a
non-tombstone record for K; malformed lines are skipped. -/
def recordOf : LogLine → Option (String × LogEntry)
  | .current k v d => if k = "" then none else some (k, ⟨k, v, d⟩)
  | .legacy k v =>
      if isKeyField k ∧ v ≠ "" then some (v, ⟨v, "", false⟩)
      else some (k, ⟨k, v, false⟩)
  | .malformed _ => none

inductive LogReadResult where
  | value (v : String)
  | notFound
  | deleted
deriving DecidableEq, Repr

/-- `Log.Read`: scan all lines, remembering the latest record observed
for the requested key; then NotFound if none matched, Deleted if the
latest match is a tombstone, else its value. -/
def logRead (lines : List LogLine) (key : String) : LogReadResult :=
  let latest := lines.foldl (fun acc l =>
    match recordOf l with
    | some (k, e) => if k = key then some e else acc
    | none => acc) none
  match latest with
  | none => .notFound
  | some e => if e.deleted then .deleted else .value e.value

/-- `Log.Write` appends one current-shape line (then fsyncs). -/
def logWrite (lines : List LogLine) (k v : String) : List LogLine :=
  lines ++ [.current k v false]

/-- `Log.Delete` appends one tombstone line (then fsyncs). -/
def logDelete (lines : List LogLine) (k : String) : List LogLine :=
  lines ++ [.current k "" true]

/-- The key → latest-record map that `compact` builds by scanning the
file in order (later records overwrite earlier ones).  The Go code fills
a `map[string]LogEntry` by a left fold; this right fold keeps, for each
key, its last record, producing the same map — the association order is
irrelevant because Go map iteration order is unspecified. -/
def logLatest : List LogLine → List (String × LogEntry)
  | [] => []
  | l :: rest =>
      let m := logLatest rest
      match recordOf l with
      | none => m
      | some (k, e) => if (m.find? (fun p => p.1 == k)).isSome then m else (k, e) :: m

/-- `compact`: write one re-marshalled current-shape line per surviving
key, skipping tombstones, into a temp file atomically renamed over the
log. -/
def logCompact (lines : List LogLine) : List LogLine :=
  (logLatest lines).filterMap (fun p =>
    if p.2.deleted then none else some (LogLine.current p.2.key p.2.value p.2.deleted))

/-- `CompactionThreshold` = 1 MiB (log.go). -/
def CompactionThreshold : Nat := 1024 * 1024

/-- The filesystem state around one log database: the log file, the
`.lock` sibling, and whether another process currently holds the
advisory flock on it. -/
structure LogWorld where
  logExists : Bool
  logLines : List LogLine
  lockFileExists : Bool
  lockHeldByOther : Bool
deriving DecidableEq, Repr

/-- The in-process `Log` value: `lockFile ≠ nil` becomes `hasLock`. -/
structure LogHandle where
  hasLock : Bool
deriving DecidableEq, Repr

/-- `NewLog`: create/open `<path>.lock`, try a non-blocking exclusive
flock (failure → error, the handle is closed and no `Log` is returned),
create the log file if absent, else auto-compact when the file size
reaches the threshold. -/
def newLog (w : LogWorld) : Except String (LogHandle × LogWorld) :=
  let w1 : LogWorld := { w with lockFileExists := true }
  if w1.lockHeldByOther then
    Except.error "database is already in use by another process"
  else if w1.logExists = false then
    Except.ok (⟨true⟩, { w1 with logExists := true, logLines := [] })
  else if CompactionThreshold ≤ logFileSize w1.logLines then
    Except.ok (⟨true⟩, { w1 with logLines := logCompact w1.logLines })
  else
    Except.ok (⟨true⟩, w1)

/-- `Log.Close`: nothing to do without a lock; otherwise release the
flock, close the handle and unlink the lock file. -/
def closeLog (h : LogHandle) (w : LogWorld) : LogHandle × LogWorld :=
  if h.hasLock = false then (h, w)
  else (⟨false⟩, { w with lockFileExists := false })

/-! ### Latest-writer-wins characterization of the log reader -/

/-- Whether a line carries a record for `k`, and which. -/
def lineMatch (k : String) (l : LogLine) : Option LogEntry :=
  match recordOf l with
  | some (k', e) => if k' = k then some e else none
  | none => none

/-- Specification-side resolution: the record of the last line matching
`k`, scanning from the end of the file. -/
def latestRecord (lines : List LogLine) (k : String) : Option LogEntry :=
  lines.reverse.findSome? (lineMatch k)

end logdb

theorem Option_orElse_none (x : Option α) : (x <|> none) = x := by
  cases x <;> rfl

theorem Option_none_orElse (x : Option α) : ((none : Option α) <|> x) = x := rfl

theorem Option_some_orElse (a : α) (x : Option α) : ((some a : Option α) <|> x) = some a := rfl

theorem Option_orElse_assoc (a b c : Option α) :
    ((a <|> b) <|> c) = (a <|> (b <|> c)) := by
  cases a <;> rfl

theorem findSome?_append (f : α → Option β) (l₁ l₂ : List α) :
    (l₁ ++ l₂).findSome? f = ((l₁.findSome? f) <|> (l₂.findSome? f)) := by
  induction l₁ with
  | nil => rfl
  | cons a rest ih =>
      rw [List.cons_append, List.findSome?_cons, List.findSome?_cons]
      cases f a
      · rw [ih]
      · rfl

namespace logdb

theorem latestRecord_nil (k : String) : latestRecord [] k = none := rfl

theorem latestRecord_cons (l : LogLine) (rest : List LogLine) (k : String) :
    latestRecord (l :: rest) k = ((latestRecord rest k) <|> lineMatch k l) := by
  rw [latestRecord, latestRecord, List.reverse_cons, findSome?_append]
  congr 1
  rw [List.findSome?_cons]
  cases lineMatch k l <;> rfl

theorem latestRecord_append_single (lines : List LogLine) (l : LogLine) (k : String) :
    latestRecord (lines ++ [l]) k = ((lineMatch k l) <|> latestRecord lines k) := by
  rw [latestRecord, List.reverse_append, latestRecord]
  rw [show ([l] : List LogLine).reverse = [l] from rfl, List.singleton_append,
    List.findSome?_cons]
  cases hm : lineMatch k l <;> rfl

/-- The reader's fold resolves to the last matching record. -/
theorem logRead_eq (lines : List LogLine) (k : String) :
    logRead lines k
      = (match latestRecord lines k with
         | none => LogReadResult.notFound
         | some e => if e.deleted then LogReadResult.deleted else LogReadResult.value e.value) := by
  have hfold : ∀ (acc : Option LogEntry),
      lines.foldl (fun acc l =>
        match recordOf l with
        | some (k', e) => if k' = k then some e else acc
        | none => acc) acc = ((latestRecord lines k) <|> acc) := by
    induction lines with
    | nil => intro acc; rfl
    | cons l rest ih =>
        intro acc
        rw [List.foldl_cons, ih, latestRecord_cons, Option_orElse_assoc]
        congr 1
        rw [lineMatch]
        rcases hr : recordOf l with _ | ⟨k', e⟩
        · rfl
        · by_cases hk : k' = k <;> simp [hk]
  rw [logRead, hfold none, Option_orElse_none]

/-- Write-then-read on the log engine: the appended current-shape line
is the latest record for its (non-empty) key. -/
theorem logRead_logWrite (lines : List LogLine) {K : String} (V : String) (hK : K ≠ "") :
    logRead (logWrite lines K V) K = LogReadResult.value V := by
  rw [logWrite, logRead_eq, latestRecord_append_single]
  rw [show lineMatch K (LogLine.current K V false) = some ⟨K, V, false⟩ by
    rw [lineMatch, recordOf]
    simp [hK]]
  rfl

/-! ### The compaction map -/

/-- Lookup in the key → latest-record map. -/
def lookupLE (m : List (String × LogEntry)) (k : String) : Option LogEntry :=
  (m.find? (fun p => p.1 == k)).map (fun p => p.2)

theorem lookupLE_cons_self {k' : String} {e' : LogEntry} {rest : List (String × LogEntry)}
    {k : String} (h : k' = k) : lookupLE ((k', e') :: rest) k = some e' := by
  rw [lookupLE, List.find?_cons_of_pos]
  · rfl
  · simp [h]

theorem lookupLE_cons_ne {k' : String} {e' : LogEntry} {rest : List (String × LogEntry)}
    {k : String} (h : ¬ k' = k) : lookupLE ((k', e') :: rest) k = lookupLE rest k := by
  rw [lookupLE, List.find?_cons_of_neg]
  · rfl
  · simp [h]

theorem lookupLE_eq_none_of_not_mem {m : List (String × LogEntry)} {k : String}
    (h : k ∉ m.map (fun p => p.1)) : lookupLE m k = none := by
  rw [lookupLE]
  rcases hf : m.find? (fun p => p.1 == k) with _ | q
  · rw [hf]
    rfl
  · exfalso
    have hm := List.mem_of_find?_eq_some hf
    have hq := List.find?_some hf
    simp only [beq_iff_eq] at hq
    exact h (List.mem_map.2 ⟨q, hm, hq⟩)

theorem recordOf_key {l : LogLine} {k : String} {e : LogEntry}
    (h : recordOf l = some (k, e)) : e.key = k := by
  cases l with
  | current k' v d =>
      rw [recordOf] at h
      by_cases hk : k' = ""
      · rw [if_pos hk] at h
        exact absurd h (by simp)
      · rw [if_neg hk] at h
        injection h with h1
        injection h1 with h2 h3
        rw [← h3, ← h2]
  | legacy k' v =>
      rw [recordOf] at h
      by_cases hkv : isKeyField k' = true ∧ v ≠ ""
      · rw [if_pos hkv] at h
        injection h with h1
        injection h1 with h2 h3
        rw [← h3, ← h2]
      · rw [if_neg hkv] at h
        injection h with h1
        injection h1 with h2 h3
        rw [← h3, ← h2]
  | malformed n => exact absurd h (by simp [recordOf])

/-- The compaction map is a well-formed association list: distinct keys,
each record stored under its own key. -/
theorem logLatest_WF (lines : List LogLine) :
    ((logLatest lines).map (fun p => p.1)).Nodup
      ∧ ∀ p ∈ logLatest lines, p.2.key = p.1 := by
  induction lines with
  | nil => exact ⟨List.nodup_nil, by simp [logLatest]⟩
  | cons l rest ih =>
      rw [logLatest]
      rcases hr : recordOf l with _ | ⟨k', e⟩
      · exact ih
      · dsimp only
        by_cases hc : ((logLatest rest).find? (fun p => p.1 == k')).isSome
        · rw [if_pos hc]
          exact ih
        · rw [if_neg hc]
          refine ⟨?_, ?_⟩
          · rw [List.map_cons, List.nodup_cons]
            refine ⟨?_, ih.1⟩
            intro hmem
            rcases List.mem_map.1 hmem with ⟨q, hq, hqk⟩
            exact hc (List.find?_isSome.2 ⟨q, hq, by simp [hqk]⟩)
          · intro p hp
            rcases List.mem_cons.1 hp with h | h
            · rw [h]
              exact recordOf_key hr
            · exact ih.2 p h

/-- The compaction map's answer for a key is the last record for it. -/
theorem lookupLE_logLatest (lines : List LogLine) (k : String) :
    lookupLE (logLatest lines) k = latestRecord lines k := by
  induction lines with
  | nil => rfl
  | cons l rest ih =>
      rw [latestRecord_cons, logLatest]
      rcases hr : recordOf l with _ | ⟨k', e⟩
      · rw [show lineMatch k l = none by rw [lineMatch, hr], Option_orElse_none]
        exact ih
      · dsimp only
        rw [show lineMatch k l = (if k' = k then some e else none) by rw [lineMatch, hr]]
        by_cases hc : ((logLatest rest).find? (fun p => p.1 == k')).isSome
        · rw [if_pos hc]
          by_cases hk : k' = k
          · subst hk
            rcases hsome : lookupLE (logLatest rest) k' with _ | x
            · exfalso
              rw [lookupLE] at hsome
              rcases hf : (logLatest rest).find? (fun p => p.1 == k') with _ | q
              · rw [hf] at hc
                simp at hc
              · rw [hf] at hsome
                simp at hsome
            · rw [ih] at hsome
              rw [hsome, Option_some_orElse]
          · rw [if_neg hk, Option_orElse_none]
            exact ih
        · rw [if_neg hc]
          by_cases hk : k' = k
          · subst hk
            rw [lookupLE_cons_self rfl, if_pos rfl]
            have hnone : latestRecord rest k' = none := by
              rw [← ih, lookupLE]
              rcases hf : (logLatest rest).find? (fun p => p.1 == k') with _ | q
              · rw [hf]
                rfl
              · rw [hf] at hc
                simp at hc
            rw [hnone]
            rfl
          · rw [if_neg hk, Option_orElse_none, lookupLE_cons_ne hk]
            exact ih

/-- Reading the compacted file resolves the compaction map, tombstones
reading as absent (for a non-empty key; a record stored under the empty
key is emitted in the current shape, which the reader never matches). -/
theorem latestRecord_filterMap {m : List (String × LogEntry)}
    (hnd : (m.map (fun p => p.1)).Nodup) (hkeys : ∀ p ∈ m, p.2.key = p.1)
    {k : String} (hk : k ≠ "") :
    latestRecord (m.filterMap (fun p =>
        if p.2.deleted then none
        else some (LogLine.current p.2.key p.2.value p.2.deleted))) k
      = (lookupLE m k).bind (fun e => if e.deleted then none else some e) := by
  induction m with
  | nil => rfl
  | cons p rest ih =>
      obtain ⟨k₀, e⟩ := p
      rw [List.map_cons, List.nodup_cons] at hnd
      have hek : e.key = k₀ := hkeys (k₀, e) (by simp)
      have ihr := ih hnd.2 (fun q hq => hkeys q (by simp [hq]))
      rw [List.filterMap_cons]
      cases hd : e.deleted
      · -- a live record becomes one current-shape line
        simp only [hd, Bool.false_eq_true, if_false]
        rw [latestRecord_cons, ihr]
        by_cases hkk : k₀ = k
        · have hlm : lineMatch k (LogLine.current e.key e.value false) = some e := by
            have h1 : recordOf (LogLine.current e.key e.value false)
                = some (e.key, ⟨e.key, e.value, false⟩) := by
              rw [recordOf, if_neg (by rw [hek, hkk]; exact hk)]
            rw [lineMatch, h1]
            dsimp only
            rw [if_pos (by rw [hek]; exact hkk), ← hd]
          rw [hlm, lookupLE_cons_self hkk]
          have hrn : lookupLE rest k = none := by
            apply lookupLE_eq_none_of_not_mem
            rw [← hkk]
            exact hnd.1
          rw [hrn]
          simp [hd]
        · have hlm : lineMatch k (LogLine.current e.key e.value false) = none := by
            by_cases hz : e.key = ""
            · have h1 : recordOf (LogLine.current e.key e.value false) = none := by
                rw [recordOf, if_pos hz]
              rw [lineMatch, h1]
            · have h1 : recordOf (LogLine.current e.key e.value false)
                  = some (e.key, ⟨e.key, e.value, false⟩) := by
                rw [recordOf, if_neg hz]
              rw [lineMatch, h1]
              dsimp only
              rw [if_neg (by rw [hek]; exact hkk)]
          rw [hlm, Option_orElse_none, lookupLE_cons_ne hkk]
      · -- a tombstone is dropped
        simp only [hd, if_true]
        rw [ihr]
        by_cases hkk : k₀ = k
        · rw [lookupLE_cons_self hkk]
          have : lookupLE rest k = none := by
            apply lookupLE_eq_none_of_not_mem
            rw [← hkk]
            exact hnd.1
          rw [this]
          simp [hd]
        · rw [lookupLE_cons_ne hkk]

/-- The value-or-absence answer of a read. -/
def logReadOpt (lines : List LogLine) (k : String) : Option String :=
  match logRead lines k with
  | LogReadResult.value v => some v
  | _ => none

/-- Compaction preserves every non-empty key's effective value (a
tombstoned key reads as Deleted before and NotFound after — absent
either way). -/
theorem logCompact_preserves (lines : List LogLine) {k : String} (hk : k ≠ "") :
    logReadOpt (logCompact lines) k = logReadOpt lines k := by
  rw [logReadOpt, logReadOpt, logRead_eq, logRead_eq, logCompact,
    latestRecord_filterMap (logLatest_WF lines).1 (logLatest_WF lines).2 hk,
    lookupLE_logLatest]
  rcases latestRecord lines k with _ | e
  · rfl
  · cases hd : e.deleted <;> simp [hd]

/-! ### File-size effect of compaction -/

def isCurrentLine : LogLine → Bool
  | .current _ _ _ => true
  | _ => false

/-- Some line of the file carries a record for `k`. -/
def hasRecordKey : List LogLine → String → Bool
  | [], _ => false
  | l :: rest, k =>
      (match recordOf l with
       | some (k', _) => k' == k
       | none => false) || hasRecordKey rest k

/-- The file contains two records with the same key, or a tombstone. -/
def dupOrTomb : List LogLine → Bool
  | [] => false
  | l :: rest =>
      (match recordOf l with
       | some (k, e) => hasRecordKey rest k || e.deleted
       | none => false) || dupOrTomb rest

theorem lineSize_pos (l : LogLine) : 0 < lineSize l := by
  cases l <;> simp [lineSize]

theorem logFileSize_cons (l : LogLine) (rest : List LogLine) :
    logFileSize (l :: rest) = lineSize l + logFileSize rest := by
  simp [logFileSize]

theorem logCompact_cons_none {l : LogLine} {rest : List LogLine} (h : recordOf l = none) :
    logCompact (l :: rest) = logCompact rest := by
  rw [logCompact, logLatest, h]
  rfl

theorem logCompact_cons_dup {l : LogLine} {rest : List LogLine} {k : String} {e : LogEntry}
    (h : recordOf l = some (k, e))
    (hc : ((logLatest rest).find? (fun p => p.1 == k)).isSome = true) :
    logCompact (l :: rest) = logCompact rest := by
  rw [logCompact, logLatest, h]
  dsimp only
  rw [if_pos hc]
  rfl

theorem logCompact_cons_fresh_tomb {l : LogLine} {rest : List LogLine} {k : String}
    {e : LogEntry} (h : recordOf l = some (k, e))
    (hc : ¬ ((logLatest rest).find? (fun p => p.1 == k)).isSome = true)
    (hd : e.deleted = true) :
    logCompact (l :: rest) = logCompact rest := by
  rw [logCompact, logLatest, h]
  dsimp only
  rw [if_neg hc, List.filterMap_cons]
  dsimp only
  rw [if_pos hd]
  rfl

theorem logCompact_cons_fresh_live {l : LogLine} {rest : List LogLine} {k : String}
    {e : LogEntry} (h : recordOf l = some (k, e))
    (hc : ¬ ((logLatest rest).find? (fun p => p.1 == k)).isSome = true)
    (hd : e.deleted = false) :
    logCompact (l :: rest) = LogLine.current e.key e.value e.deleted :: logCompact rest := by
  rw [logCompact, logLatest, h]
  dsimp only
  rw [if_neg hc, List.filterMap_cons]
  dsimp only
  rw [if_neg (show ¬ (e.deleted = true) by rw [hd]; simp)]
  rfl

/-- The sparse-map guard agrees with record-key membership. -/
theorem find_logLatest_isSome (lines : List LogLine) : ∀ (k : String),
    ((logLatest lines).find? (fun p => p.1 == k)).isSome = hasRecordKey lines k := by
  induction lines with
  | nil => intro k; rfl
  | cons l rest ih =>
      intro k
      rw [logLatest, hasRecordKey]
      rcases hr : recordOf l with _ | ⟨k', e⟩
      · dsimp only
        rw [ih k, Bool.false_or]
      · dsimp only
        by_cases hc : ((logLatest rest).find? (fun p => p.1 == k')).isSome = true
        · rw [if_pos hc, ih k]
          by_cases hkk : k' = k
          · subst hkk
            rw [ih k'] at hc
            simp [hc]
          · simp [hkk]
        · rw [if_neg hc]
          by_cases hkk : k' = k
          · subst hkk
            rw [List.find?_cons_of_pos _ (by simp)]
            simp
          · rw [List.find?_cons_of_neg _ (by simp [hkk]), ih k]
            simp [hkk]

/-- On a file of engine-written (canonical current-shape) lines,
compaction never grows the file: each surviving record re-marshals to its
original line. -/
theorem logCompact_size_le (lines : List LogLine)
    (hall : lines.all isCurrentLine = true) :
    logFileSize (logCompact lines) ≤ logFileSize lines := by
  induction lines with
  | nil => exact le_refl _
  | cons l rest ih =>
      rw [List.all_cons, Bool.and_eq_true] at hall
      have ihr := ih hall.2
      rw [logFileSize_cons]
      rcases l with ⟨k', v, d⟩ | ⟨k', v⟩ | n
      · by_cases hz : k' = ""
        · rw [logCompact_cons_none (by rw [recordOf, if_pos hz])]
          omega
        · have hr : recordOf (LogLine.current k' v d) = some (k', ⟨k', v, d⟩) := by
            rw [recordOf, if_neg hz]
          by_cases hc : ((logLatest rest).find? (fun p => p.1 == k')).isSome = true
          · rw [logCompact_cons_dup hr hc]
            omega
          · rcases Bool.eq_false_or_eq_true d with hdd | hdd
            · subst hdd
              rw [logCompact_cons_fresh_tomb hr hc rfl]
              omega
            · subst hdd
              rw [logCompact_cons_fresh_live hr hc rfl, logFileSize_cons]
              have hsz : lineSize (LogLine.current (LogEntry.mk k' v false).key
                    (LogEntry.mk k' v false).value (LogEntry.mk k' v false).deleted)
                  = lineSize (LogLine.current k' v false) := rfl
              rw [hsz]
              omega
      · exact absurd hall.1 (by simp [isCurrentLine])
      · exact absurd hall.1 (by simp [isCurrentLine])

/-- With a duplicate key or a tombstone present, compaction strictly
shrinks a file of engine-written lines. -/
theorem logCompact_size_lt (lines : List LogLine)
    (hall : lines.all isCurrentLine = true) (hdt : dupOrTomb lines = true) :
    logFileSize (logCompact lines) < logFileSize lines := by
  induction lines with
  | nil => simp [dupOrTomb] at hdt
  | cons l rest ih =>
      rw [List.all_cons, Bool.and_eq_true] at hall
      have hwk := logCompact_size_le rest hall.2
      have hlp := lineSize_pos l
      rw [logFileSize_cons]
      rcases l with ⟨k', v, d⟩ | ⟨k', v⟩ | n
      · by_cases hz : k' = ""
        · rw [logCompact_cons_none (by rw [recordOf, if_pos hz])]
          have := lineSize_pos (LogLine.current k' v d)
          omega
        · have hr : recordOf (LogLine.current k' v d) = some (k', ⟨k', v, d⟩) := by
            rw [recordOf, if_neg hz]
          by_cases hc : ((logLatest rest).find? (fun p => p.1 == k')).isSome = true
          · rw [logCompact_cons_dup hr hc]
            have := lineSize_pos (LogLine.current k' v d)
            omega
          · rcases Bool.eq_false_or_eq_true d with hdd | hdd
            · subst hdd
              rw [logCompact_cons_fresh_tomb hr hc rfl]
              have := lineSize_pos (LogLine.current k' v true)
              omega
            · -- fresh live record: the strictness must come from the rest
              subst hdd
              have hrest : dupOrTomb rest = true := by
                rw [dupOrTomb, hr] at hdt
                dsimp only at hdt
                rw [find_logLatest_isSome rest k'] at hc
                have hnk : hasRecordKey rest k' = false := by
                  rcases hb : hasRecordKey rest k' with _ | _
                  · rfl
                  · exact absurd hb hc
                rw [hnk] at hdt
                simpa using hdt
              have ihs := ih hall.2 hrest
              rw [logCompact_cons_fresh_live hr hc rfl, logFileSize_cons]
              have hsz : lineSize (LogLine.current (LogEntry.mk k' v false).key
                    (LogEntry.mk k' v false).value (LogEntry.mk k' v false).deleted)
                  = lineSize (LogLine.current k' v false) := rfl
              rw [hsz]
              omega
      · exact absurd hall.1 (by simp [isCurrentLine])
      · exact absurd hall.1 (by simp [isCurrentLine])

/-! ### A large log file mixing current and legacy shapes -/

/-- A 1 MiB filler value (2^20 copies of `a`). -/
def bigValue : String := String.mk (List.replicate 1048576 'a')

theorem bigValue_data : bigValue.data = List.replicate 1048576 'a' := rfl

theorem bigValue_escSizes :
    (List.replicate 1048576 'a' |>.map escCharSize) = List.replicate 1048576 1 := by
  rw [List.map_replicate, show escCharSize 'a' = 1 from by decide]

theorem replicate_one_sum : (List.replicate 1048576 (1 : Nat)).sum = 1048576 := by
  rw [List.sum_replicate, smul_eq_mul, mul_one]

theorem jsonStringSize_bigValue : jsonStringSize bigValue = 1048578 := by
  rw [jsonStringSize, bigValue_data, bigValue_escSizes, replicate_one_sum]

/-- A log file over the compaction threshold holding one large record and
a duplicated legacy key. -/
def mixedLines : List LogLine :=
  [.current "p" bigValue false, .legacy "k" "v", .legacy "k" "v2"]

theorem logCompact_mixedLines : logCompact mixedLines
    = [.current "p" bigValue false, .current "k" "v2" false] := by
  rw [show mixedLines = LogLine.current "p" bigValue false ::
      [LogLine.legacy "k" "v", LogLine.legacy "k" "v2"] from rfl]
  rw [logCompact_cons_fresh_live (by rw [recordOf, if_neg (by decide)]) (by decide) rfl]
  rfl

theorem lineSize_bigRecord : lineSize (LogLine.current "p" bigValue false) = 1048615 := by
  rw [lineSize, show jsonStringSize "p" = 3 from by decide, jsonStringSize_bigValue]
  rfl

theorem logFileSize_mixedLines : logFileSize mixedLines = 1048636 := by
  rw [show mixedLines = [LogLine.current "p" bigValue false,
    LogLine.legacy "k" "v", LogLine.legacy "k" "v2"] from rfl, logFileSize]
  rw [List.map_cons, List.map_cons, List.map_cons, List.map_nil]
  rw [List.sum_cons, List.sum_cons, List.sum_cons, List.sum_nil]
  rw [lineSize_bigRecord,
    show lineSize (LogLine.legacy "k" "v") = 10 from by decide,
    show lineSize (LogLine.legacy "k" "v2") = 11 from by decide]
  rfl

theorem logFileSize_compact_mixedLines :
    logFileSize (logCompact mixedLines) = 1048656 := by
  rw [logCompact_mixedLines, logFileSize]
  rw [List.map_cons, List.map_cons, List.map_nil]
  rw [List.sum_cons, List.sum_cons, List.sum_nil]
  rw [lineSize_bigRecord,
    show lineSize (LogLine.current "k" "v2" false) = 41 from by decide]
  rfl

/-- Opening an existing log at or above the compaction threshold (with
the cross-process lock free) compacts it in place. -/
theorem newLog_compacts {w : LogWorld} (hlock : w.lockHeldByOther = false)
    (hex : w.logExists = true)
    (hsize : CompactionThreshold ≤ logFileSize w.logLines) :
    newLog w = Except.ok (⟨true⟩,
      { w with lockFileExists := true, logLines := logCompact w.logLines }) := by
  rw [newLog]
  dsimp only
  rw [if_neg (by rw [hlock]; simp), if_neg (by rw [hex]; simp), if_pos hsize]

end logdb

namespace hashkv

/-! Model of `src/hashkv/hashkv.go` (the current variant, with tombstone
support).  A record of the append-only file is an 8-byte little-endian
length prefix followed by a JSON payload; `HFrame` keeps the decoded
payload and `frameSize` its on-disk footprint. -/

structure HashKVEntry where
  key : String
  value : String
  deleted : Bool
deriving DecidableEq, Repr

/-- One length-prefixed record of the hash engine's file: either a
marshalled `HashKVEntry` (current shape) or a legacy `{"K":"V"}`
single-pair object written raw by `fmt.Sprintf`. -/
inductive HFrame where
  | current (key value : String) (deleted : Bool)
  | legacy (key value : String)
deriving DecidableEq, Repr

/-- On-disk byte size of a frame: 8 length bytes plus the JSON payload
(current shape: braces, the three quoted field names `key`, `value`,
`deleted`, separators, the two marshalled strings and the boolean;
legacy shape: braces, four quotes, a colon and the raw bytes of the two
strings). -/
def frameSize : HFrame → Nat
  | .current k v d =>
      8 + (28 + jsonStringSize k + jsonStringSize v + (if d then 4 else 5))
  | .legacy k v => 8 + (7 + k.utf8ByteSize + v.utf8ByteSize)

def hfileSize (file : List HFrame) : Nat := (file.map frameSize).sum

/-- Insert-or-overwrite on an association list: the model of Go map
assignment (key order is irrelevant to every use below). -/
def alInsert {α : Type} : List (String × α) → String → α → List (String × α)
  | [], k, a => [(k, a)]
  | (k', a') :: rest, k, a =>
      if k' = k then (k, a) :: rest else (k', a') :: alInsert rest k a

/-- Go map lookup on the association-list model. -/
def alLookup {α : Type} (m : List (String × α)) (k : String) : Option α :=
  (m.find? (fun p => p.1 == k)).map (fun p => p.2)

structure HashKV where
  file : List HFrame
  byteOffsetIndex : List (String × Nat)

/-- `Write`: append the marshalled entry at the end of the file and point
the index at its starting offset (the file size before the append). -/
def hashWrite (h : HashKV) (key value : String) : HashKV :=
  { file := h.file ++ [.current key value false],
    byteOffsetIndex := alInsert h.byteOffsetIndex key (hfileSize h.file) }

/-- `Delete`: append a tombstone and drop the key from the index. -/
def hashDelete (h : HashKV) (key : String) : HashKV :=
  { file := h.file ++ [.current key "" true],
    byteOffsetIndex := h.byteOffsetIndex.filter (fun p => !(p.1 == key)) }

/-- Walk the file to the frame starting at byte offset `off`. -/
def readFrameAt : List HFrame → Nat → Option HFrame
  | [], _ => none
  | f :: rest, off =>
      if off = 0 then some f
      else if off < frameSize f then none
      else readFrameAt rest (off - frameSize f)

/-- Decoding step of `Read` at a frame, for the key `k` the index was
probed with.  A current-shape payload with a non-empty key answers its
`value` field unconditionally: `Read` checks neither `deleted` nor that
the key matches, relying on the index.  A current-shape payload with an
empty key falls through to the `map[string]string` parse, which fails on
the boolean `deleted` field.  A legacy payload parses as the old
single-pair object and answers only for its own key.  (The legacy branch
assumes the pair's key is not itself one of the field names `key`,
`value`, `deleted`, which Go's first parse would match; engine-written
files contain no legacy frames.) -/
def readFrame (k : String) : HFrame → Option String
  | .current k' v _ => if k' = "" then none else some v
  | .legacy k' v => if k' = k then some v else none

/-- `Read`: index probe, then seek to the recorded offset and decode. -/
def hashRead (h : HashKV) (k : String) : Option String :=
  match alLookup h.byteOffsetIndex k with
  | none => none
  | some off =>
      match readFrameAt h.file off with
      | none => none
      | some f => readFrame k f

/-- The record key and tombstone flag the rebuild scan extracts from a
frame.  A current-shape frame with an empty key takes the
`map[string]any` fallback, which would file the frame under whichever of
the three field names Go's map iteration yields first; that branch is
modelled as a skip and is unreachable for engine-written files, whose
keys are non-empty. -/
def frameRecord : HFrame → Option (String × Bool)
  | .current k _ d => if k = "" then none else some (k, d)
  | .legacy k _ => some (k, false)

/-- The scan loop of `NewHashKV`: walk the file keeping, per key, the
starting offset and tombstone flag of its latest record. -/
def rebuildAux : List HFrame → Nat → List (String × (Nat × Bool)) →
    List (String × (Nat × Bool))
  | [], _, m => m
  | f :: rest, pos, m =>
      rebuildAux rest (pos + frameSize f)
        (match frameRecord f with
         | some (k, d) => alInsert m k (pos, d)
         | none => m)

/-- `NewHashKV` over an existing file: rebuild the index from the scan
map, omitting keys whose latest record is a tombstone. -/
def newHashKV (file : List HFrame) : HashKV :=
  { file := file,
    byteOffsetIndex := (rebuildAux file 0 []).filterMap
      (fun p => if p.2.2 then none else some (p.1, p.2.1)) }

inductive HOp where
  | write (key value : String)
  | del (key : String)
deriving DecidableEq, Repr

def opKey : HOp → String
  | .write k _ => k
  | .del k => k

def applyOp (h : HashKV) : HOp → HashKV
  | .write k v => hashWrite h k v
  | .del k => hashDelete h k

def emptyHashKV : HashKV := { file := [], byteOffsetIndex := [] }

def runOps (ops : List HOp) : HashKV := ops.foldl applyOp emptyHashKV

/-- Frame that one operation appends to the file. -/
def opFrame : HOp → HFrame
  | .write k v => .current k v false
  | .del k => .current k "" true

/-- Last operation of the sequence that mentions the key (rightmost
wins). -/
def latestOp : List HOp → String → Option HOp
  | [], _ => none
  | op :: rest, k =>
      ((latestOp rest k) <|> (if opKey op == k then some op else none))

/-- Specification-side effective value of a key after a sequence of
operations: the value of its last write, unless a later delete removed
it. -/
def effValue (ops : List HOp) (k : String) : Option String :=
  match latestOp ops k with
  | some (.write _ v) => some v
  | _ => none

/-- Latest record for the key among frames laid out from byte `pos`:
its starting offset, tombstone flag, and the frame itself. -/
def lastFrameAt : List HFrame → Nat → String → Option (Nat × Bool × HFrame)
  | [], _, _ => none
  | f :: rest, pos, k =>
      ((lastFrameAt rest (pos + frameSize f) k) <|>
        (match frameRecord f with
         | some (k', d) => if k' = k then some (pos, d, f) else none
         | none => none))

theorem frameSize_pos (f : HFrame) : 0 < frameSize f := by
  cases f <;> simp [frameSize]

theorem alLookup_cons_self {α : Type} {k' : String} {a : α} {rest : List (String × α)}
    {k : String} (h : k' = k) : alLookup ((k', a) :: rest) k = some a := by
  rw [alLookup, List.find?_cons_of_pos]
  · rfl
  · simp [h]

theorem alLookup_cons_ne {α : Type} {k' : String} {a : α} {rest : List (String × α)}
    {k : String} (h : ¬ k' = k) : alLookup ((k', a) :: rest) k = alLookup rest k := by
  rw [alLookup, List.find?_cons_of_neg]
  · rfl
  · simp [h]

theorem alLookup_alInsert {α : Type} (m : List (String × α)) (k' : String) (a : α)
    (k : String) :
    alLookup (alInsert m k' a) k = if k' = k then some a else alLookup m k := by
  induction m with
  | nil =>
      rw [show alInsert ([] : List (String × α)) k' a = [(k', a)] from rfl]
      by_cases h : k' = k
      · rw [if_pos h, alLookup_cons_self h]
      · rw [if_neg h, alLookup_cons_ne h]
  | cons p rest ih =>
      rcases p with ⟨k0, a0⟩
      rw [alInsert]
      by_cases h0 : k0 = k'
      · rw [if_pos h0]
        by_cases h : k' = k
        · rw [if_pos h, alLookup_cons_self h]
        · rw [if_neg h, alLookup_cons_ne h, alLookup_cons_ne (h0 ▸ h)]
      · rw [if_neg h0]
        by_cases h1 : k0 = k
        · have h : ¬ k' = k := fun hh => h0 (h1 ▸ hh.symm ▸ rfl)
          rw [if_neg h, alLookup_cons_self h1, alLookup_cons_self h1]
        · rw [alLookup_cons_ne h1, ih, alLookup_cons_ne h1]

/-- Keys of an association list are pairwise distinct. -/
def alKeysNodup {α : Type} (m : List (String × α)) : Prop :=
  (m.map (fun p => p.1)).Nodup

theorem alKeysNodup_nil {α : Type} : alKeysNodup ([] : List (String × α)) :=
  List.nodup_nil

/-- A member of the updated association list carries the inserted key or
was already present. -/
theorem mem_alInsert {α : Type} (q : String × α) (k : String) (a : α) :
    ∀ (m : List (String × α)), q ∈ alInsert m k a → q.1 = k ∨ q ∈ m := by
  intro m
  induction m with
  | nil =>
      intro hq
      rw [show alInsert ([] : List (String × α)) k a = [(k, a)] from rfl] at hq
      rcases List.mem_singleton.mp hq with h
      exact Or.inl (by rw [h])
  | cons p' rest' ih' =>
      intro hq
      rcases p' with ⟨k1, a1⟩
      rw [alInsert] at hq
      by_cases h1 : k1 = k
      · rw [if_pos h1] at hq
        rcases List.mem_cons.mp hq with h | h
        · exact Or.inl (by rw [h])
        · exact Or.inr (List.mem_cons_of_mem _ h)
      · rw [if_neg h1] at hq
        rcases List.mem_cons.mp hq with h | h
        · exact Or.inr (by rw [h]; exact List.mem_cons_self _ _)
        · rcases ih' h with h' | h'
          · exact Or.inl h'
          · exact Or.inr (List.mem_cons_of_mem _ h')

theorem alKeysNodup_alInsert {α : Type} {m : List (String × α)}
    (hm : alKeysNodup m) (k : String) (a : α) : alKeysNodup (alInsert m k a) := by
  induction m with
  | nil => simp [alInsert, alKeysNodup]
  | cons p rest ih =>
      rcases p with ⟨k0, a0⟩
      rw [alKeysNodup, List.map_cons, List.nodup_cons] at hm
      rw [alInsert]
      by_cases h0 : k0 = k
      · rw [if_pos h0, alKeysNodup, List.map_cons, List.nodup_cons]
        exact ⟨h0 ▸ hm.1, hm.2⟩
      · rw [if_neg h0, alKeysNodup, List.map_cons, List.nodup_cons]
        refine ⟨?_, ih hm.2⟩
        intro hmem
        rcases List.mem_map.mp hmem with ⟨q, hq, hq1⟩
        rcases mem_alInsert q k a rest hq with h | h
        · have hq1' : q.1 = k0 := hq1
          exact h0 (hq1'.symm.trans h)
        · exact hm.1 (hq1 ▸ List.mem_map_of_mem (fun p => p.1) h)

theorem alKeysNodup_rebuildAux (file : List HFrame) : ∀ (pos : Nat)
    (m : List (String × (Nat × Bool))), alKeysNodup m →
    alKeysNodup (rebuildAux file pos m) := by
  induction file with
  | nil => intro pos m hm; exact hm
  | cons f rest ih =>
      intro pos m hm
      rw [rebuildAux]
      rcases hr : frameRecord f with _ | ⟨k, d⟩
      · exact ih _ _ hm
      · exact ih _ _ (alKeysNodup_alInsert hm k (pos, d))

/-- The rebuild scan computes, per key, exactly the latest record's
offset and tombstone flag. -/
theorem alLookup_rebuildAux (file : List HFrame) : ∀ (pos : Nat)
    (m : List (String × (Nat × Bool))) (k : String),
    alLookup (rebuildAux file pos m) k =
      (match lastFrameAt file pos k with
       | some (p, d, _) => some (p, d)
       | none => alLookup m k) := by
  induction file with
  | nil => intro pos m k; rfl
  | cons f rest ih =>
      intro pos m k
      rw [rebuildAux, lastFrameAt]
      rcases hl : lastFrameAt rest (pos + frameSize f) k with _ | ⟨p, d, f'⟩
      · rw [Option_none_orElse]
        rcases hr : frameRecord f with _ | ⟨k', d'⟩
        · dsimp only
          rw [ih, hl]
        · dsimp only
          rw [ih, hl]
          dsimp only
          rw [alLookup_alInsert]
          by_cases hk : k' = k
          · rw [if_pos hk, if_pos hk]
          · rw [if_neg hk, if_neg hk]
      · rw [Option_some_orElse]
        rcases hr : frameRecord f with _ | ⟨k', d'⟩ <;>
          · dsimp only
            rw [ih, hl]

theorem alLookup_filterMap_none {m : List (String × (Nat × Bool))} {k : String}
    (h : ∀ p ∈ m, p.1 ≠ k) :
    alLookup (m.filterMap
      (fun p => if p.2.2 then none else some (p.1, p.2.1))) k = none := by
  induction m with
  | nil => rfl
  | cons p rest ih =>
      rw [List.filterMap_cons]
      by_cases hb : p.2.2 = true
      · rw [if_pos hb]
        exact ih (fun q hq => h q (List.mem_cons_of_mem _ hq))
      · rw [if_neg hb]
        dsimp only
        rw [alLookup_cons_ne (h p (List.mem_cons_self _ _)),
          ih (fun q hq => h q (List.mem_cons_of_mem _ hq))]

/-- Dropping tombstoned keys from the scan map: the resulting index maps
a key to its offset exactly when its latest record is live. -/
theorem alLookup_filterMap (m : List (String × (Nat × Bool)))
    (hm : alKeysNodup m) (k : String) :
    alLookup (m.filterMap
      (fun p => if p.2.2 then none else some (p.1, p.2.1))) k =
      (match alLookup m k with
       | some (p, false) => some p
       | _ => none) := by
  induction m with
  | nil => rfl
  | cons p rest ih =>
      rcases p with ⟨k0, p0, d0⟩
      rw [alKeysNodup, List.map_cons, List.nodup_cons] at hm
      rw [List.filterMap_cons]
      by_cases hk : k0 = k
      · rw [alLookup_cons_self hk]
        rcases Bool.eq_false_or_eq_true d0 with hb | hb
        · subst hb
          rw [if_pos (show ((k0, p0, true) : String × Nat × Bool).2.2 = true from rfl)]
          dsimp only
          exact alLookup_filterMap_none
            (fun q hq hq1 => hm.1 ((hq1.trans hk.symm) ▸
              List.mem_map_of_mem (fun p => p.1) hq))
        · subst hb
          rw [if_neg (show ¬ ((k0, p0, false) : String × Nat × Bool).2.2 = true by simp)]
          dsimp only
          rw [alLookup_cons_self hk]
      · rw [alLookup_cons_ne hk]
        by_cases hb : ((k0, p0, d0) : String × Nat × Bool).2.2 = true
        · rw [if_pos hb]
          exact ih hm.2
        · rw [if_neg hb]
          dsimp only
          rw [alLookup_cons_ne hk]
          exact ih hm.2

/-- A latest-record hit locates a real frame: seeking to the recorded
offset (relative to the scan's starting byte) decodes that frame. -/
theorem readFrameAt_lastFrameAt (file : List HFrame) : ∀ (pos p : Nat) (k : String)
    (d : Bool) (f : HFrame), lastFrameAt file pos k = some (p, d, f) →
    pos ≤ p ∧ readFrameAt file (p - pos) = some f := by
  induction file with
  | nil => intro pos p k d f h; exact absurd h (by rw [lastFrameAt]; simp)
  | cons f0 rest ih =>
      intro pos p k d f h
      rw [lastFrameAt] at h
      rcases hl : lastFrameAt rest (pos + frameSize f0) k with _ | q
      · rw [hl, Option_none_orElse] at h
        rcases hr : frameRecord f0 with _ | ⟨k', d'⟩
        · rw [hr] at h
          exact absurd h (by simp)
        · rw [hr] at h
          dsimp only at h
          by_cases hk : k' = k
          · rw [if_pos hk] at h
            rcases Option.some.injEq _ _ ▸ h with h'
            obtain ⟨hp, hd, hf⟩ : pos = p ∧ d' = d ∧ f0 = f := by
              refine ⟨congrArg (fun t => t.1) h', ?_, ?_⟩
              · exact congrArg (fun t => t.2.1) h'
              · exact congrArg (fun t => t.2.2) h'
            subst hp
            subst hf
            refine ⟨le_refl _, ?_⟩
            rw [readFrameAt, if_pos (Nat.sub_self _)]
          · rw [if_neg hk] at h
            exact absurd h (by simp)
      · rw [hl, Option_some_orElse] at h
        rcases q with ⟨p', d', f'⟩
        rcases ih (pos + frameSize f0) p k d f (hl.trans (by rw [h])) with ⟨hle, hread⟩
        have hpos := frameSize_pos f0
        refine ⟨by omega, ?_⟩
        rw [readFrameAt, if_neg (by omega), if_neg (by omega),
          show p - pos - frameSize f0 = p - (pos + frameSize f0) by omega]
        exact hread

/-- Point-lookup correctness of a reopened store: `Read` answers
according to the key's latest record in the file — `none` when there is
no record or the latest one is a tombstone, otherwise the decode of that
record's frame. -/
theorem hashRead_newHashKV (file : List HFrame) (k : String) :
    hashRead (newHashKV file) k =
      (match lastFrameAt file 0 k with
       | some (_, d, f) => if d then none else readFrame k f
       | none => none) := by
  rw [hashRead]
  have hidx : alLookup (newHashKV file).byteOffsetIndex k =
      (match lastFrameAt file 0 k with
       | some (p, false, _) => some p
       | _ => none) := by
    rw [show (newHashKV file).byteOffsetIndex = (rebuildAux file 0 []).filterMap
        (fun p => if p.2.2 then none else some (p.1, p.2.1)) from rfl]
    rw [alLookup_filterMap _ (alKeysNodup_rebuildAux file 0 [] alKeysNodup_nil) k,
      alLookup_rebuildAux]
    rcases lastFrameAt file 0 k with _ | ⟨p, d, f⟩
    · rfl
    · rcases d with _ | _ <;> rfl
  rw [hidx]
  rcases hL : lastFrameAt file 0 k with _ | ⟨p, d, f⟩
  · rfl
  · rcases d with _ | _
    · dsimp only
      have hread := readFrameAt_lastFrameAt file 0 p k false f hL
      rw [Nat.sub_zero] at hread
      rw [show (newHashKV file).file = file from rfl, hread.2]
      rfl
    · rfl

theorem foldl_applyOp_file (ops : List HOp) : ∀ (h : HashKV),
    (ops.foldl applyOp h).file = h.file ++ ops.map opFrame := by
  induction ops with
  | nil => intro h; simp
  | cons op rest ih =>
      intro h
      rw [List.foldl_cons, ih, List.map_cons]
      rcases op with ⟨k, v⟩ | ⟨k⟩ <;>
        simp [applyOp, hashWrite, hashDelete, opFrame]

/-- The file after a run of operations from an empty store: one frame
per operation, in order. -/
theorem runOps_file (ops : List HOp) : (runOps ops).file = ops.map opFrame := by
  rw [runOps, foldl_applyOp_file]
  simp [emptyHashKV]

theorem latestOp_key (ops : List HOp) (k : String) : ∀ o,
    latestOp ops k = some o → opKey o = k := by
  induction ops with
  | nil => intro o h; exact absurd h (by rw [latestOp]; simp)
  | cons op rest ih =>
      intro o h
      rw [latestOp] at h
      rcases hro : latestOp rest k with _ | o'
      · rw [hro, Option_none_orElse] at h
        by_cases hkk : (opKey op == k) = true
        · rw [if_pos hkk] at h
          have := Option.some.inj h
          rw [← this]
          exact eq_of_beq hkk
        · rw [if_neg hkk] at h
          exact absurd h (by simp)
      · rw [hro, Option_some_orElse] at h
        exact (Option.some.inj h) ▸ ih o' hro

/-- For a non-empty key, the latest record among the frames written by a
run of operations is exactly the frame of the latest operation touching
the key (projecting away the byte offset). -/
theorem lastFrameAt_opsMap (ops : List HOp) : ∀ (pos : Nat) {k : String}, k ≠ "" →
    (lastFrameAt (ops.map opFrame) pos k).map (fun q => (q.2.1, q.2.2))
      = (latestOp ops k).map (fun op =>
          ((match op with | .del _ => true | .write _ _ => false), opFrame op)) := by
  induction ops with
  | nil => intro pos k hk; rfl
  | cons op rest ih =>
      intro pos k hk
      rw [List.map_cons, lastFrameAt, latestOp]
      rcases hl : lastFrameAt (rest.map opFrame) (pos + frameSize (opFrame op)) k
        with _ | q
      · rw [Option_none_orElse]
        have hih := ih (pos + frameSize (opFrame op)) hk
        rw [hl] at hih
        have hro : latestOp rest k = none := by
          rcases hro : latestOp rest k with _ | o
          · rfl
          · rw [hro] at hih
            exact absurd hih.symm (by simp)
        rw [hro, Option_none_orElse]
        rcases op with ⟨k', v⟩ | ⟨k'⟩
        · dsimp only [opFrame, frameRecord, opKey]
          by_cases hkk : k' = k
          · have hk' : ¬ k' = "" := fun h0 => hk (hkk.symm.trans h0)
            simp [hkk, hk', hk]
          · by_cases hz : k' = "" <;> simp [hkk, hz, Ne.symm hk]
        · dsimp only [opFrame, frameRecord, opKey]
          by_cases hkk : k' = k
          · have hk' : ¬ k' = "" := fun h0 => hk (hkk.symm.trans h0)
            simp [hkk, hk', hk]
          · by_cases hz : k' = "" <;> simp [hkk, hz, Ne.symm hk]
      · rw [Option_some_orElse]
        have hih := ih (pos + frameSize (opFrame op)) hk
        rw [hl] at hih
        rcases hro : latestOp rest k with _ | o
        · rw [hro] at hih
          exact absurd hih (by simp)
        · rw [Option_some_orElse]
          rw [hro] at hih
          exact hih

theorem hfileSize_cons (f : HFrame) (rest : List HFrame) :
    hfileSize (f :: rest) = frameSize f + hfileSize rest := by
  simp [hfileSize]

/-- Seeking to the old end of file reads back the frame just appended. -/
theorem readFrameAt_append (file : List HFrame) (f : HFrame) :
    readFrameAt (file ++ [f]) (hfileSize file) = some f := by
  induction file with
  | nil => rfl
  | cons g rest ih =>
      rw [List.cons_append, readFrameAt, hfileSize_cons]
      have hg := frameSize_pos g
      rw [if_neg (by omega), if_neg (by omega), Nat.add_sub_cancel_left]
      exact ih

/-- In-process write-then-read on the hash engine: the index points at
the appended frame, whose decode returns the value (any value, the empty
string included). -/
theorem hashRead_hashWrite (h : HashKV) {k : String} (v : String) (hk : k ≠ "") :
    hashRead (hashWrite h k v) k = some v := by
  rw [hashRead, hashWrite]
  dsimp only
  rw [alLookup_alInsert, if_pos rfl]
  dsimp only
  rw [readFrameAt_append]
  dsimp only
  rw [readFrame, if_neg hk]

end hashkv

/-! ## The specification claims -/

/-- Four single-record sorted tables, enough to meet the LSM compaction
threshold. -/
def fourTables : List SSTable :=
  [writeSSTable [⟨"k", "v1", false⟩], writeSSTable [⟨"k", "v2", false⟩],
   writeSSTable [⟨"k", "v3", false⟩], writeSSTable [⟨"k", "v4", false⟩]]

/-- An LSM state with four tables and a small memtable. -/
def smallDB : SSTableDB := ⟨emptyMemtable, fourTables, 5⟩

/-- An LSM state with four tables whose memtable byte counter sits at the
flush threshold, so the next write flushes. -/
def thresholdDB : SSTableDB := ⟨⟨[], 1048576⟩, fourTables, 9⟩

/-- A 33-record sorted table probing the sparse-index scan window. -/
def probeEntries : List Entry :=
  (List.range 33).map (fun i => ⟨"k" ++ toString (100 + i), "v" ++ toString i, false⟩)

/-- C1: the spec's read layering says a key present in the memtable as a
tombstone yields NotFound without consulting the table stack.  The code
disagrees: `Memtable.Get` reports tombstones as plain misses, so `Read`
falls through to the stack and resurrects the older table's value — after
write, flush, delete, a read returns the deleted value. -/
theorem C1_memtable_tombstone_falls_through :
    lsmRead (lsmDelete (lsmFlush (lsmWrite newSSTableDB "k" "v")) "k") "k" = some "v" := by
  decide

/-- C2 counterexample: writing the empty string as a value and flushing
loses it — the LSM reader treats an empty value coming from a table as a
tombstone, so the read reports NotFound instead of the written value. -/
theorem C2_counterexample :
    lsmRead (lsmFlush (lsmWrite newSSTableDB "k" "")) "k" = none := by
  decide

/-- C2 (amended): write-then-read returns the written value — for the log
and hash engines for every value including the empty string, and for the
LSM engine while the record is still in the memtable; across an LSM flush
— explicit, or automatic when the write itself reaches the flush
threshold — the value must be non-empty. -/
theorem C2_amended :
    (∀ (lines : List logdb.LogLine) (K V : String), K ≠ "" →
        logdb.logRead (logdb.logWrite lines K V) K = logdb.LogReadResult.value V)
    ∧ (∀ (h : hashkv.HashKV) (K V : String), K ≠ "" →
        hashkv.hashRead (hashkv.hashWrite h K V) K = some V)
    ∧ (∀ (db : SSTableDB) (K V : String),
        (db.memtable.put K V).size < MemtableFlushThreshold →
        lsmRead (lsmWrite db K V) K = some V)
    ∧ (∀ (db : SSTableDB) (K V : String), keysNodup db.memtable.entries → V ≠ "" →
        (db.memtable.put K V).size < MemtableFlushThreshold →
        lsmRead (lsmFlush (lsmWrite db K V)) K = some V)
    ∧ (∀ (db : SSTableDB) (K V : String), keysNodup db.memtable.entries →
        (∀ t ∈ db.sstables, SSTWF t) → V ≠ "" →
        MemtableFlushThreshold ≤ (db.memtable.put K V).size →
        lsmRead (lsmWrite db K V) K = some V) :=
  ⟨fun lines K V hK => logdb.logRead_logWrite lines V hK,
   fun h K V hK => hashkv.hashRead_hashWrite h V hK,
   fun _ _ _ hs => lsm_write_read hs,
   fun _ _ _ hn hv hs => lsm_write_flush_read hn hv hs,
   fun _ _ _ hn htw hv hs => lsm_write_autoflush_read hn hv htw hs⟩

theorem C2_amended_witness :
    (("k" : String) ≠ ""
      ∧ logdb.logRead (logdb.logWrite [] "k" "v") "k" = logdb.LogReadResult.value "v")
    ∧ ((emptyMemtable.put "k" "").size < MemtableFlushThreshold
      ∧ lsmRead (lsmWrite newSSTableDB "k" "") "k" = some "")
    ∧ (MemtableFlushThreshold ≤ ((Memtable.mk [] 1048575).put "k" "v").size
      ∧ lsmRead (lsmWrite (SSTableDB.mk (Memtable.mk [] 1048575) [] 0) "k" "v") "k"
          = some "v") :=
  ⟨⟨by decide, C2_amended.1 [] "k" "v" (by decide)⟩,
   ⟨by decide, C2_amended.2.2.1 newSSTableDB "k" "" (by decide)⟩,
   ⟨by decide, C2_amended.2.2.2.2 (SSTableDB.mk (Memtable.mk [] 1048575) [] 0) "k" "v"
     (by rw [keysNodup]; decide) (fun t ht => absurd ht (List.not_mem_nil t))
     (by decide) (by decide)⟩⟩

/-- C3: sorted-table codec round-trip — for entries with distinct keys,
after writing and reopening, Get on a written live key returns its value
with exists=true, on an unwritten key returns exists=false, and on a
tombstoned key returns the empty value with exists=true. -/
theorem C3_roundTrip (es : List Entry) (hnd : keysNodup es) :
    (∀ e ∈ es, e.Deleted = false → sstGet (writeSSTable es) e.Key = (e.Value, true))
    ∧ (∀ k, (∀ e ∈ es, e.Key ≠ k) → sstGet (writeSSTable es) k = ("", false))
    ∧ (∀ e ∈ es, e.Deleted = true → sstGet (writeSSTable es) e.Key = ("", true)) := by
  refine ⟨?_, ?_, ?_⟩
  · intro e he hd
    rw [sstGet_writeSSTable hnd, (lookupKey_eq_some_iff hnd).2 ⟨he, rfl⟩]
    dsimp only
    rw [hd]
    rfl
  · intro k hk
    rw [sstGet_writeSSTable hnd, lookupKey_eq_none_iff.2 hk]
  · intro e he hd
    rw [sstGet_writeSSTable hnd, (lookupKey_eq_some_iff hnd).2 ⟨he, rfl⟩]
    dsimp only
    rw [hd]
    rfl

theorem C3_roundTrip_witness :
    keysNodup [(⟨"a", "1", false⟩ : Entry), ⟨"b", "", true⟩]
    ∧ sstGet (writeSSTable [(⟨"a", "1", false⟩ : Entry), ⟨"b", "", true⟩]) "a" = ("1", true)
    ∧ sstGet (writeSSTable [(⟨"a", "1", false⟩ : Entry), ⟨"b", "", true⟩]) "c" = ("", false)
    ∧ sstGet (writeSSTable [(⟨"a", "1", false⟩ : Entry), ⟨"b", "", true⟩]) "b" = ("", true) :=
  ⟨by rw [keysNodup]; decide,
   (C3_roundTrip _ (by rw [keysNodup]; decide)).1 ⟨"a", "1", false⟩ (by simp) rfl,
   (C3_roundTrip _ (by rw [keysNodup]; decide)).2.1 "c" (by decide),
   (C3_roundTrip _ (by rw [keysNodup]; decide)).2.2 ⟨"b", "", true⟩ (by simp) rfl⟩

/-- C4 counterexample: with four tables on disk and a small memtable, a
subsequent write leaves all four tables in place — no compaction happens
unless the write lifts the memtable to the flush threshold. -/
theorem C4_counterexample :
    CompactionThreshold ≤ smallDB.sstables.length
    ∧ ¬ ((lsmWrite smallDB "x" "y").sstables.length ≤ 1) :=
  ⟨by decide, by decide⟩

/-- C4 (amended): a write that lifts the memtable to the flush threshold
while the stack holds at least COMPACTION_THRESHOLD tables flushes and
compacts: at most one table remains — none at all when every key's latest
record is a tombstone — and every key afterwards reads as its
latest-writer-wins record resolves, with tombstoned, empty-valued and
absent keys reading as NotFound. -/
theorem C4_amended {db : SSTableDB} {k v : String}
    (hmem : keysNodup (db.memtable.put k v).entries)
    (hsize : MemtableFlushThreshold ≤ (db.memtable.put k v).size)
    (htw : ∀ t ∈ db.sstables, SSTWF t)
    (hstack : CompactionThreshold ≤ db.sstables.length) :
    (lsmWrite db k v).sstables.length ≤ 1
    ∧ (∀ q, lsmRead (lsmWrite db k v) q
        = (match lsmEffEntry { db with memtable := db.memtable.put k v } q with
           | none => none
           | some e => if e.Deleted then none
               else (if e.Value = "" then none else some e.Value)))
    ∧ ((∀ q e, lsmEffEntry { db with memtable := db.memtable.put k v } q = some e →
          e.Deleted = true) → (lsmWrite db k v).sstables = []) := by
  have hspec : (compactStep (flushMemtable
        { db with memtable := db.memtable.put k v })).sstables.length ≤ 1
      ∧ ∀ q, lsmRead (compactStep (flushMemtable
          { db with memtable := db.memtable.put k v })) q
        = (match lsmEffEntry { db with memtable := db.memtable.put k v } q with
           | none => none
           | some e => if e.Deleted then none
               else (if e.Value = "" then none else some e.Value)) :=
    compactStep_flush_spec hmem (put_not_isEmpty db.memtable k v) htw
      (le_trans (by decide) hstack)
  refine ⟨?_, ?_, ?_⟩
  · rw [lsmWrite_flush_compact hsize hstack]
    exact hspec.1
  · rw [lsmWrite_flush_compact hsize hstack]
    exact hspec.2
  · intro htomb
    rw [lsmWrite_flush_compact hsize hstack]
    exact compactStep_flush_empty hmem (put_not_isEmpty db.memtable k v) htw
      (le_trans (by decide) hstack) htomb

theorem C4_amended_witness :
    keysNodup ((thresholdDB.memtable.put "k" "v").entries)
    ∧ MemtableFlushThreshold ≤ (thresholdDB.memtable.put "k" "v").size
    ∧ CompactionThreshold ≤ thresholdDB.sstables.length
    ∧ (lsmWrite thresholdDB "k" "v").sstables.length ≤ 1 :=
  ⟨by rw [keysNodup]; decide, by decide, by decide,
   (C4_amended (by rw [keysNodup]; decide) (by decide)
     (by
       intro t ht
       rw [show thresholdDB.sstables = fourTables from rfl, fourTables] at ht
       rcases List.mem_cons.mp ht with h | ht
       · exact ⟨[⟨"k", "v1", false⟩], by rw [keysNodup]; decide, h⟩
       rcases List.mem_cons.mp ht with h | ht
       · exact ⟨[⟨"k", "v2", false⟩], by rw [keysNodup]; decide, h⟩
       rcases List.mem_cons.mp ht with h | ht
       · exact ⟨[⟨"k", "v3", false⟩], by rw [keysNodup]; decide, h⟩
       rcases List.mem_cons.mp ht with h | ht
       · exact ⟨[⟨"k", "v4", false⟩], by rw [keysNodup]; decide, h⟩
       exact absurd ht (List.not_mem_nil t))
     (by decide)).1⟩

/-- C5 counterexample: a 33-record table where one point lookup
deserializes 17 = INDEX_INTERVAL + 1 data records — the scan window from
an index sample to its successor spans 16 records, and the terminating
strictly-greater record is deserialized as well. -/
theorem C5_counterexample :
    IndexInterval < sstGetCount (writeSSTable probeEntries) "k115z" := by
  decide

/-- C5 (amended): a point lookup on a table written from records with
distinct keys deserializes at most INDEX_INTERVAL + 1 data records. -/
theorem C5_amended {es : List Entry} (hnd : keysNodup es) (k : String) :
    sstGetCount (writeSSTable es) k ≤ IndexInterval + 1 :=
  sstGetCount_writeSSTable hnd k

theorem C5_amended_witness :
    keysNodup probeEntries
    ∧ sstGetCount (writeSSTable probeEntries) "k115z" ≤ IndexInterval + 1 :=
  ⟨by rw [keysNodup]; decide, C5_amended (by rw [keysNodup]; decide) "k115z"⟩

/-- C6 counterexample: an over-threshold log file whose duplicate keys
sit in legacy records compacts to a LARGER file — the surviving legacy
record is re-marshalled into the longer current shape, outweighing the
dropped duplicate. -/
theorem C6_counterexample :
    logdb.CompactionThreshold ≤ logdb.logFileSize logdb.mixedLines
    ∧ (∃ h w', logdb.newLog (logdb.LogWorld.mk true logdb.mixedLines false false)
        = Except.ok (h, w')
        ∧ ¬ (logdb.logFileSize w'.logLines < logdb.logFileSize logdb.mixedLines)) := by
  have hsize : logdb.CompactionThreshold ≤ logdb.logFileSize logdb.mixedLines := by
    rw [logdb.logFileSize_mixedLines]
    decide
  refine ⟨hsize, ⟨⟨true⟩, _, logdb.newLog_compacts rfl rfl hsize, ?_⟩⟩
  show ¬ (logdb.logFileSize (logdb.logCompact logdb.mixedLines)
    < logdb.logFileSize logdb.mixedLines)
  rw [logdb.logFileSize_compact_mixedLines, logdb.logFileSize_mixedLines]
  decide

/-- C6 (amended): opening an existing log of size at least 1 MiB (with
the lock free) compacts it; every non-empty key's value-or-absence read
is preserved; and the file strictly shrinks whenever it consists of
engine-written current-shape lines containing a duplicate key or a
tombstone. -/
theorem C6_amended {w : logdb.LogWorld} (hlock : w.lockHeldByOther = false)
    (hex : w.logExists = true)
    (hsize : logdb.CompactionThreshold ≤ logdb.logFileSize w.logLines) :
    logdb.newLog w = Except.ok (⟨true⟩,
      { w with lockFileExists := true, logLines := logdb.logCompact w.logLines })
    ∧ (∀ k : String, k ≠ "" →
        logdb.logReadOpt (logdb.logCompact w.logLines) k = logdb.logReadOpt w.logLines k)
    ∧ (w.logLines.all logdb.isCurrentLine = true → logdb.dupOrTomb w.logLines = true →
        logdb.logFileSize (logdb.logCompact w.logLines) < logdb.logFileSize w.logLines) :=
  ⟨logdb.newLog_compacts hlock hex hsize,
   fun _ hk => logdb.logCompact_preserves w.logLines hk,
   fun hall hdt => logdb.logCompact_size_lt w.logLines hall hdt⟩

theorem C6_amended_witness :
    (logdb.LogWorld.mk true [logdb.LogLine.malformed 1048576] false false).lockHeldByOther = false
    ∧ (logdb.LogWorld.mk true [logdb.LogLine.malformed 1048576] false false).logExists = true
    ∧ logdb.CompactionThreshold
        ≤ logdb.logFileSize [logdb.LogLine.malformed 1048576]
    ∧ logdb.newLog (logdb.LogWorld.mk true [logdb.LogLine.malformed 1048576] false false)
        = Except.ok (⟨true⟩, logdb.LogWorld.mk true
            (logdb.logCompact [logdb.LogLine.malformed 1048576]) true false) :=
  ⟨rfl, rfl, by decide, (C6_amended rfl rfl (by decide)).1⟩

/-- C7 counterexample: the legacy line `\x7b"key":"z"\x7d` binds the current
shape's `key` field, so the reader takes the current-format branch:
reading the record's own key `key` reports NotFound, while reading `z`
reports the empty string — the claim's latest-record semantics fails for
K = `key`. -/
theorem C7_counterexample :
    logdb.logRead [logdb.LogLine.legacy "key" "z"] "key" = logdb.LogReadResult.notFound
    ∧ logdb.logRead [logdb.LogLine.legacy "key" "z"] "z" = logdb.LogReadResult.value "" :=
  ⟨by decide, by decide⟩

/-- C7 (amended): the log reader resolves every key to the latest record
across both shapes; a legacy record `\x7bK:V\x7d` acts as a non-tombstone
record for K provided its pair does not bind the current shape's `key`
field (K not a case variant of `key`, or V empty); and a write in the
current shape supersedes any earlier record for the key. -/
theorem C7_amended :
    (∀ (lines : List logdb.LogLine) (k : String),
        logdb.logRead lines k
          = (match logdb.latestRecord lines k with
             | none => logdb.LogReadResult.notFound
             | some e => if e.deleted then logdb.LogReadResult.deleted
                 else logdb.LogReadResult.value e.value))
    ∧ (∀ (lines : List logdb.LogLine) (K V : String),
        logdb.isKeyField K = false ∨ V = "" →
        logdb.logRead (lines ++ [logdb.LogLine.legacy K V]) K
          = logdb.LogReadResult.value V)
    ∧ (∀ (lines : List logdb.LogLine) (K V : String), K ≠ "" →
        logdb.logRead (logdb.logWrite lines K V) K = logdb.LogReadResult.value V) := by
  refine ⟨logdb.logRead_eq, ?_, fun lines K V hK => logdb.logRead_logWrite lines V hK⟩
  intro lines K V hKV
  rw [logdb.logRead_eq, logdb.latestRecord_append_single]
  rw [show logdb.lineMatch K (logdb.LogLine.legacy K V) = some ⟨K, V, false⟩ by
    rw [logdb.lineMatch, logdb.recordOf]
    rcases hKV with h | h
    · rw [if_neg (by simp [h])]
      simp
    · rw [if_neg (by simp [h])]
      simp]
  rfl

theorem C7_amended_witness :
    (logdb.isKeyField "k" = false ∨ ("old" : String) = "")
    ∧ logdb.logRead ([] ++ [logdb.LogLine.legacy "k" "old"]) "k"
        = logdb.LogReadResult.value "old"
    ∧ (("k" : String) ≠ ""
        ∧ logdb.logRead (logdb.logWrite [logdb.LogLine.legacy "k" "old"] "k" "new") "k"
            = logdb.LogReadResult.value "new") :=
  ⟨Or.inl (by decide),
   C7_amended.2.1 [] "k" "old" (Or.inl (by decide)),
   ⟨by decide, C7_amended.2.2 [logdb.LogLine.legacy "k" "old"] "k" "new" (by decide)⟩⟩

/-- C8: reopening the hash engine over the file written by any sequence
of writes and deletes rebuilds the index from each key's latest record,
omitting tombstoned keys, so a read returns the latest surviving write's
value and not-found otherwise. -/
theorem C8_reopen_read (ops : List hashkv.HOp) {k : String} (hk : k ≠ "") :
    hashkv.hashRead (hashkv.newHashKV (hashkv.runOps ops).file) k
      = hashkv.effValue ops k := by
  rw [hashkv.runOps_file, hashkv.hashRead_newHashKV, hashkv.effValue]
  have h := hashkv.lastFrameAt_opsMap ops 0 hk
  rcases hL : hashkv.lastFrameAt (ops.map hashkv.opFrame) 0 k with _ | ⟨p, d, f⟩
  · rw [hL] at h
    rcases ho : hashkv.latestOp ops k with _ | o
    · rfl
    · rw [ho] at h
      exact absurd h.symm (by simp)
  · rw [hL] at h
    rcases ho : hashkv.latestOp ops k with _ | o
    · rw [ho] at h
      simp at h
    · rw [ho] at h
      have hkey := hashkv.latestOp_key ops k o ho
      have h' := Option.some.inj h
      rcases o with ⟨k', v⟩ | ⟨k'⟩
      · have hd : d = false := by simpa using congrArg Prod.fst h'
        have hf : f = hashkv.HFrame.current k' v false := by
          simpa using congrArg Prod.snd h'
        subst hd
        subst hf
        dsimp only
        rw [hashkv.readFrame,
          if_neg (show ¬ k' = "" from fun h0 => hk ((show k = k' from hkey.symm).trans h0))]
        rfl
      · have hd : d = true := by simpa using congrArg Prod.fst h'
        subst hd
        rfl

theorem C8_reopen_read_witness :
    ("b" : String) ≠ ""
    ∧ hashkv.hashRead (hashkv.newHashKV (hashkv.runOps
        [hashkv.HOp.write "a" "1", hashkv.HOp.write "b" "2", hashkv.HOp.del "a",
         hashkv.HOp.write "b" "3"]).file) "b"
      = hashkv.effValue
        [hashkv.HOp.write "a" "1", hashkv.HOp.write "b" "2", hashkv.HOp.del "a",
         hashkv.HOp.write "b" "3"] "b" :=
  ⟨by decide,
   C8_reopen_read
     [hashkv.HOp.write "a" "1", hashkv.HOp.write "b" "2", hashkv.HOp.del "a",
      hashkv.HOp.write "b" "3"] (by decide)⟩

/-- C9: opening acquires the non-blocking exclusive lock on the `.lock`
sibling and fails with an already-in-use error, returning no handle, when
another process holds it; closing a locked handle drops the lock and
removes the lock file. -/
theorem C9_locking (w : logdb.LogWorld) :
    (w.lockHeldByOther = true →
      logdb.newLog w = Except.error "database is already in use by another process")
    ∧ (∀ h : logdb.LogHandle, h.hasLock = true →
        (logdb.closeLog h w).1.hasLock = false
        ∧ (logdb.closeLog h w).2.lockFileExists = false) := by
  constructor
  · intro hlock
    simp [logdb.newLog, hlock]
  · intro h hl
    rw [logdb.closeLog, if_neg (by rw [hl]; simp)]
    exact ⟨rfl, rfl⟩

theorem C9_locking_witness :
    logdb.newLog (logdb.LogWorld.mk true [] true true)
        = Except.error "database is already in use by another process"
    ∧ (logdb.closeLog ⟨true⟩ (logdb.LogWorld.mk true [] true false)).1.hasLock = false
    ∧ (logdb.closeLog ⟨true⟩ (logdb.LogWorld.mk true [] true false)).2.lockFileExists = false :=
  ⟨(C9_locking _).1 rfl,
   ((C9_locking (logdb.LogWorld.mk true [] true false)).2 ⟨true⟩ rfl).1,
   ((C9_locking (logdb.LogWorld.mk true [] true false)).2 ⟨true⟩ rfl).2⟩

/-- C10: with fewer than two tables the internal compaction step changes
nothing, so a Compact() whose flush leaves one table on disk produces
exactly that flushed table, tombstones included. -/
theorem C10_compact_noop (db : SSTableDB) :
    (db.sstables.length < 2 → compactStep db = db)
    ∧ (db.sstables = [] → db.memtable.isEmpty = false →
        lsmCompact db
          = { memtable := emptyMemtable
              sstables := [writeSSTable db.memtable.getSortedEntries]
              nextSSTableID := db.nextSSTableID + 1 }) :=
  ⟨fun h => compactStep_noop h, fun hs hne => lsmCompact_single_table hs hne⟩

theorem C10_compact_noop_witness :
    ((SSTableDB.mk (Memtable.mk [⟨"k", "", true⟩] 1) [] 0).sstables.length < 2)
    ∧ compactStep (SSTableDB.mk (Memtable.mk [⟨"k", "", true⟩] 1) [] 0)
        = SSTableDB.mk (Memtable.mk [⟨"k", "", true⟩] 1) [] 0
    ∧ lsmCompact (SSTableDB.mk (Memtable.mk [⟨"k", "", true⟩] 1) [] 0)
        = { memtable := emptyMemtable
            sstables :=
              [writeSSTable (Memtable.mk [⟨"k", "", true⟩] 1).getSortedEntries]
            nextSSTableID := 1 } :=
  ⟨by decide,
   (C10_compact_noop _).1 (by decide),
   (C10_compact_noop _).2 rfl rfl⟩

end ToyDB
